import Mathlib

/-!
# Verification of the sym-ts expression canonicalizer

A shallow embedding of `src/expressions/core.ts`, `src/core/types.ts` and the
TypeScript backend's `evaluateNumerical`, together with proofs and refutations
of the specified properties.

Modelling choices, stated once here:
* JavaScript `number` coefficients are modelled as exact rationals `ℚ`;
  floating-point rounding, `NaN` and infinities are outside the model.
  `Math.pow` is modelled by `qpow`, which agrees with the source on
  integer exponents of nonzero bases (and on `0 ** n` for `n ≥ 0`) and
  returns the junk value `0` where the source would produce irrational
  or non-finite floats.
* JavaScript strings are modelled as Lean `String`; `charCodeAt` is the
  character code point, which coincides with UTF-16 code units on the
  ASCII strings used throughout.
* `String.prototype.localeCompare` is modelled as code-point lexicographic
  comparison (the spec's "order by name (lexicographic)").
* `Number.prototype.toString` (used only to feed the hash) is modelled
  exactly for integral values and by `num/den` notation otherwise.
* JavaScript `Map` is modelled as an insertion-ordered association list:
  `set` overwrites in place, iteration follows insertion order.
* The symbol registry maps names to ids injectively, so id equality is
  name equality; symbols are therefore modelled by their names.
-/

namespace SymTs

/-! ### Kernel-computable rational arithmetic

`Rat.add`, `Rat.mul`, … are `@[irreducible]`, so the embedding uses
`mkRat`-based equivalents (proved equal to the standard operations below)
to keep every definition evaluable by `decide`/`rfl`. -/

/-- Addition on `ℚ`, kernel-computable. -/
def qadd (a b : ℚ) : ℚ := mkRat (a.num * b.den + b.num * a.den) (a.den * b.den)

/-- Multiplication on `ℚ`, kernel-computable. -/
def qmul (a b : ℚ) : ℚ := mkRat (a.num * b.num) (a.den * b.den)

/-- Negation on `ℚ`, kernel-computable. -/
def qneg (a : ℚ) : ℚ := mkRat (-a.num) a.den

/-- Subtraction on `ℚ`, kernel-computable. -/
def qsub (a b : ℚ) : ℚ := qadd a (qneg b)

/-- Inverse on `ℚ`, kernel-computable. -/
def qinv (a : ℚ) : ℚ := Rat.divInt a.den a.num

/-- Integer embedding into `ℚ`, kernel-computable. -/
def qofInt (i : Int) : ℚ := mkRat i 1

/-- Natural-number powers on `ℚ`, kernel-computable. -/
def qpowNat (v : ℚ) : Nat → ℚ
  | 0 => 1
  | n + 1 => qmul v (qpowNat v n)

theorem qadd_eq (a b : ℚ) : qadd a b = a + b := by
  rw [qadd, Rat.mkRat_eq_divInt, Rat.divInt_eq_div]
  have ha : ((a.den : ℚ)) ≠ 0 := by
    exact_mod_cast a.den_ne_zero
  have hb : ((b.den : ℚ)) ≠ 0 := by
    exact_mod_cast b.den_ne_zero
  conv_rhs => rw [← Rat.num_div_den a, ← Rat.num_div_den b]
  field_simp

theorem qmul_eq (a b : ℚ) : qmul a b = a * b := by
  rw [qmul, Rat.mkRat_eq_divInt, Rat.divInt_eq_div]
  have ha : ((a.den : ℚ)) ≠ 0 := by
    exact_mod_cast a.den_ne_zero
  have hb : ((b.den : ℚ)) ≠ 0 := by
    exact_mod_cast b.den_ne_zero
  conv_rhs => rw [← Rat.num_div_den a, ← Rat.num_div_den b]
  field_simp

theorem qneg_eq (a : ℚ) : qneg a = -a := by
  rw [qneg, Rat.mkRat_eq_divInt, Rat.divInt_eq_div]
  have ha : ((a.den : ℚ)) ≠ 0 := by
    exact_mod_cast a.den_ne_zero
  conv_rhs => rw [← Rat.num_div_den a]
  field_simp

theorem qsub_eq (a b : ℚ) : qsub a b = a - b := by
  rw [qsub, qadd_eq, qneg_eq]
  ring

theorem qinv_eq (a : ℚ) : qinv a = a⁻¹ := by
  rw [qinv, Rat.inv_def']

theorem qofInt_eq (i : Int) : qofInt i = (i : ℚ) := by
  rw [qofInt, Rat.mkRat_one]

theorem qpowNat_eq (v : ℚ) (n : Nat) : qpowNat v n = v ^ n := by
  induction n with
  | zero => rw [qpowNat, pow_zero]
  | succ k ih => rw [qpowNat, qmul_eq, ih, pow_succ]; ring

/-- Model of `Math.pow` on the rational value domain: exact on integer
exponents of nonzero bases and on `0 ** n` for `n ≥ 0`; the junk value `0`
stands in for the source's irrational / non-finite float results. -/
def qpow (v e : ℚ) : ℚ :=
  if e.den = 1 then
    if 0 ≤ e.num then qpowNat v e.num.toNat
    else if v = 0 then 0
    else qinv (qpowNat v (-e.num).toNat)
  else 0

/-- The `ExpressionType` discriminant of `src/core/types.ts`. -/
inductive ExpressionType where
  | Zero | One | NegativeOne | Number | Symbol | Pow | Mul | Add
deriving DecidableEq, Repr

/-- `TYPE_ORDER` from `src/core/types.ts`. -/
def TYPE_ORDER : ExpressionType → Nat
  | .Zero => 0
  | .One => 1
  | .NegativeOne => 2
  | .Number => 3
  | .Symbol => 4
  | .Pow => 5
  | .Mul => 6
  | .Add => 7

/-- `fastHash` from `src/core/types.ts`: FNV-1a over the character codes,
reduced to an unsigned 32-bit value (the `^`/`Math.imul`/`>>> 0` combination
is congruent to arithmetic modulo `2^32`). -/
def fastHash (data : String) : Nat :=
  data.data.foldl (fun h c => (Nat.xor h c.toNat * 16777619) % 4294967296) 2166136261

/-- `combineHashes` from `src/core/types.ts`. -/
def combineHashes (hashes : List Nat) : Nat :=
  hashes.foldl (fun r h => (Nat.xor r h * 16777619) % 4294967296) 2166136261

/-- Expression trees. `num` covers the `SymNumber` class (whose `type` field
is derived from the stored value by its constructor), `sym` the `SymSymbol`
class (identified by name, see the registry note above), and `add`, `mul`,
`pow` the composite classes, a `Pow` storing exactly `[base, exponent]`. -/
inductive Expression where
  | num (value : ℚ)
  | sym (name : String)
  | add (args : List Expression)
  | mul (args : List Expression)
  | pow (base exponent : Expression)
deriving Repr

mutual
/-- Node count, the measure used for strong induction over expressions. -/
def Expression.size : Expression → Nat
  | .num _ => 1
  | .sym _ => 1
  | .add args => 1 + sizeList args
  | .mul args => 1 + sizeList args
  | .pow b e => 1 + b.size + e.size

def sizeList : List Expression → Nat
  | [] => 0
  | e :: es => e.size + sizeList es
end

/-- Strong induction on the node count. -/
theorem Expression.strongInd {P : Expression → Prop}
    (ih : ∀ e, (∀ f, Expression.size f < Expression.size e → P f) → P e) (e : Expression) :
    P e := by
  generalize hn : e.size = n
  induction n using Nat.strong_induction_on generalizing e with
  | _ n IH => exact ih e (fun f hf => IH f.size (hn ▸ hf) f rfl)

mutual
/-- Structural equality of expression trees (a model-level utility, distinct
from the source's `equals`). -/
def Expression.beq : Expression → Expression → Bool
  | .num v, .num w => decide (v = w)
  | .sym n, .sym m => decide (n = m)
  | .add xs, .add ys => beqList xs ys
  | .mul xs, .mul ys => beqList xs ys
  | .pow b1 e1, .pow b2 e2 => Expression.beq b1 b2 && Expression.beq e1 e2
  | _, _ => false

def beqList : List Expression → List Expression → Bool
  | [], [] => true
  | x :: xs, y :: ys => Expression.beq x y && beqList xs ys
  | _, _ => false
end

theorem size_pos (e : Expression) : 0 < e.size := by
  cases e with
  | num v => simp [Expression.size]
  | sym n => simp [Expression.size]
  | add args => simp [Expression.size]
  | mul args => simp [Expression.size]
  | pow b ex => simp [Expression.size]

theorem size_lt_of_mem {e : Expression} {l : List Expression} (h : e ∈ l) :
    e.size ≤ sizeList l := by
  induction l with
  | nil => cases h
  | cons a as ihl =>
      rcases List.mem_cons.mp h with h1 | h2
      · subst h1; simp [sizeList]
      · have := ihl h2
        simp only [sizeList]
        omega

theorem beq_iff : ∀ a b : Expression, Expression.beq a b = true ↔ a = b := by
  intro a
  induction a using Expression.strongInd with
  | ih a IH =>
    have listCase :
        ∀ xs ys : List Expression,
          (∀ x ∈ xs, ∀ b : Expression, Expression.beq x b = true ↔ x = b) →
          (beqList xs ys = true ↔ xs = ys) := by
      intro xs
      induction xs with
      | nil => intro ys _; cases ys <;> simp [beqList]
      | cons x xs ihx =>
          intro ys hmem
          cases ys with
          | nil => simp [beqList]
          | cons y ys =>
              simp only [beqList, Bool.and_eq_true, List.cons.injEq]
              rw [hmem x (List.mem_cons_self x xs) y,
                ihx ys (fun u hu b => hmem u (List.mem_cons_of_mem x hu) b)]
    intro b
    cases a with
    | num v => cases b <;> simp [Expression.beq]
    | sym n => cases b <;> simp [Expression.beq]
    | add xs =>
        cases b with
        | add ys =>
            have := listCase xs ys
              (fun x hx b => IH x (by simp only [Expression.size]; have := size_lt_of_mem hx; omega) b)
            simp only [Expression.beq, Expression.add.injEq]
            exact this
        | num v => simp [Expression.beq]
        | sym n => simp [Expression.beq]
        | mul ys => simp [Expression.beq]
        | pow b2 e2 => simp [Expression.beq]
    | mul xs =>
        cases b with
        | mul ys =>
            have := listCase xs ys
              (fun x hx b => IH x (by simp only [Expression.size]; have := size_lt_of_mem hx; omega) b)
            simp only [Expression.beq, Expression.mul.injEq]
            exact this
        | num v => simp [Expression.beq]
        | sym n => simp [Expression.beq]
        | add ys => simp [Expression.beq]
        | pow b2 e2 => simp [Expression.beq]
    | pow b1 e1 =>
        cases b with
        | pow b2 e2 =>
            have h1 := IH b1 (by simp only [Expression.size]; omega) b2
            have h2 := IH e1 (by simp only [Expression.size]; omega) e2
            simp only [Expression.beq, Bool.and_eq_true, Expression.pow.injEq]
            rw [h1, h2]
        | num v => simp [Expression.beq]
        | sym n => simp [Expression.beq]
        | add ys => simp [Expression.beq]
        | mul ys => simp [Expression.beq]

instance : DecidableEq Expression := fun a b =>
  decidable_of_iff (Expression.beq a b = true) (beq_iff a b)


/-- The `type` field: the `SymNumber` constructor assigns `Zero`, `One`,
`NegativeOne` or `Number` from the value; other classes have fixed tags. -/
def Expression.type : Expression → ExpressionType
  | .num v => if v = 0 then .Zero else if v = 1 then .One else if v = -1 then .NegativeOne else .Number
  | .sym _ => .Symbol
  | .add _ => .Add
  | .mul _ => .Mul
  | .pow _ _ => .Pow

/-- The string tag used when hashing a node kind. -/
def typeName : ExpressionType → String
  | .Zero => "Zero"
  | .One => "One"
  | .NegativeOne => "NegativeOne"
  | .Number => "Number"
  | .Symbol => "Symbol"
  | .Pow => "Pow"
  | .Mul => "Mul"
  | .Add => "Add"

/-- `Number.prototype.toString` as fed to the hash; exact for integral values. -/
def ratToString (v : ℚ) : String :=
  if v.den = 1 then toString v.num else toString v.num ++ "/" ++ toString v.den

mutual
/-- The structural hash: `SymNumber`/`SymSymbol` precompute
`fastHash (type ++ ":" ++ value)` resp. `fastHash ("Symbol:" ++ name)`;
composite nodes use `BaseExpression.computeHash`, which combines
`fastHash type` with the child hashes (or hashes the bare tag when the
operand list is empty). -/
def Expression.hash : Expression → Nat
  | .num v => fastHash (typeName (Expression.num v).type ++ ":" ++ ratToString v)
  | .sym n => fastHash ("Symbol:" ++ n)
  | .add args => if args.isEmpty then fastHash "Add" else combineHashes (fastHash "Add" :: hashList args)
  | .mul args => if args.isEmpty then fastHash "Mul" else combineHashes (fastHash "Mul" :: hashList args)
  | .pow b e => combineHashes [fastHash "Pow", b.hash, e.hash]

def hashList : List Expression → List Nat
  | [] => []
  | e :: es => e.hash :: hashList es
end

/-- Code-point lexicographic string comparison (model of `localeCompare`). -/
def strCmp : List Char → List Char → ℚ
  | [], [] => 0
  | [], _ :: _ => -1
  | _ :: _, [] => 1
  | a :: s, b :: t => if a.toNat < b.toNat then -1 else if b.toNat < a.toNat then 1 else strCmp s t

mutual
/-- `compareTo`: the `TYPE_ORDER` difference, else the kind-specific
comparison (`Number`: value subtraction; `Symbol`: name comparison; `Pow`:
base then exponent; `Add`/`Mul`: lexicographic on operands then length
difference). Values are rationals since the JS comparator returns numbers. -/
def Expression.compareTo (a b : Expression) : ℚ :=
  if TYPE_ORDER a.type ≠ TYPE_ORDER b.type then
    qofInt ((TYPE_ORDER a.type : Int) - (TYPE_ORDER b.type : Int))
  else
    match a, b with
    | .num v, .num w => qsub v w
    | .sym n, .sym m => strCmp n.data m.data
    | .pow b1 e1, .pow b2 e2 =>
        if Expression.compareTo b1 b2 ≠ 0 then Expression.compareTo b1 b2
        else Expression.compareTo e1 e2
    | .add xs, .add ys => cmpList xs ys
    | .mul xs, .mul ys => cmpList xs ys
    | _, _ => 0

/-- The argument-array comparison loop of `compareToSameType` for `Add`/`Mul`:
positional comparison over the common prefix, then the length difference. -/
def cmpList : List Expression → List Expression → ℚ
  | x :: xs, y :: ys =>
      if Expression.compareTo x y ≠ 0 then Expression.compareTo x y else cmpList xs ys
  | xs, ys => qofInt ((xs.length : Int) - (ys.length : Int))
end

mutual
/-- `equals`: hash fast-reject, type equality, then the per-class
`deepEquals` (value equality for numbers, id — i.e. name — equality for
symbols, pairwise recursive `equals` over operand lists for composites). -/
def Expression.equals (a b : Expression) : Bool :=
  decide (a.hash = b.hash) && decide (a.type = b.type) &&
    match a, b with
    | .num v, .num w => decide (v = w)
    | .sym n, .sym m => decide (n = m)
    | .pow b1 e1, .pow b2 e2 => Expression.equals b1 b2 && Expression.equals e1 e2
    | .add xs, .add ys => eqList xs ys
    | .mul xs, .mul ys => eqList xs ys
    | _, _ => false

def eqList : List Expression → List Expression → Bool
  | [], [] => true
  | x :: xs, y :: ys => Expression.equals x y && eqList xs ys
  | _, _ => false
end

/-- The preallocated `ZERO` singleton. -/
def ZERO : Expression := .num 0
/-- The preallocated `ONE` singleton. -/
def ONE : Expression := .num 1
/-- The preallocated `NEGATIVE_ONE` singleton. -/
def NEGATIVE_ONE : Expression := .num (-1)

/-- The numeric-kind test used by `Pow.create` and the flatten routines
(`kind ∈ {Zero, One, NegativeOne, Number}`). -/
def isNumericType (t : ExpressionType) : Bool :=
  match t with
  | .Number | .Zero | .One | .NegativeOne => true
  | _ => false

/-- `Add.extractCoeffTerm`: split a numeric leaf into `(value, ONE)`; split a
`Mul` with a leading numeric operand (every node of a numeric kind is a
`num` node) into that value and the remaining operands, a single remainder
unwrapped and several re-wrapped as a raw `Mul`; else `(1, expr)`. -/
def extractCoeffTerm (e : Expression) : ℚ × Expression :=
  match e with
  | .num v => (v, ONE)
  | .mul (first :: rest) =>
      match first with
      | .num v => (v, match rest with | [t] => t | _ => .mul rest)
      | _ => (1, .mul (first :: rest))
  | _ => (1, e)

/-- JS `Map.set` on a hash-keyed map of coefficients: overwrite in place,
else append. -/
def mapSet (m : List (Nat × ℚ)) (k : Nat) (v : ℚ) : List (Nat × ℚ) :=
  match m with
  | [] => [(k, v)]
  | (k', v') :: rest => if k' = k then (k, v) :: rest else (k', v') :: mapSet rest k v

/-- `terms.get(h) || 0` (a stored `0` and an absent key both give `0`). -/
def mapGetD (m : List (Nat × ℚ)) (k : Nat) : ℚ :=
  match m with
  | [] => 0
  | (k', v') :: rest => if k' = k then v' else mapGetD rest k

/-- JS `Map.set` on the `baseHashToExpr` map. -/
def rmapSet (m : List (Nat × Expression)) (k : Nat) (v : Expression) : List (Nat × Expression) :=
  match m with
  | [] => [(k, v)]
  | (k', v') :: rest => if k' = k then (k, v) :: rest else (k', v') :: rmapSet rest k v

/-- JS `Map.get` on the `baseHashToExpr` map. -/
def rmapGet (m : List (Nat × Expression)) (k : Nat) : Option Expression :=
  match m with
  | [] => none
  | (k', v') :: rest => if k' = k then some v' else rmapGet rest k

/-- JS `Array.prototype.sort` by the `compareTo` comparator, modelled as
insertion sort (the comparator is a total order, so any comparison sort
computes the same list): insertion step. -/
def insertCanon (a : Expression) : List Expression → List Expression
  | [] => [a]
  | b :: l => if a.compareTo b ≤ 0 then a :: b :: l else b :: insertCanon a l

/-- `resultTerms.sort((a, b) => a.compareTo(b))`. -/
def sortCanon (l : List Expression) : List Expression := l.foldr insertCanon []

/-- `Pow.create`: the absorption table in source order, then immediate
numeric evaluation when base and exponent are both numeric (precisely the
`num` nodes), else a `Pow` node over `[base, exponent]` verbatim. -/
def Pow.create (base exponent : Expression) : Expression :=
  if exponent.type = .Zero then ONE
  else if exponent.type = .One then base
  else if base.type = .Zero then ZERO
  else if base.type = .One then ONE
  else
    match base, exponent with
    | .num bv, .num ev => .num (qpow bv ev)
    | _, _ => .pow base exponent

/-- The mutable state of `Mul.flatten`'s `collectFactors` closure. -/
structure MulSt where
  powers : List (Nat × ℚ)
  factors : List Expression
  baseHashToExpr : List (Nat × Expression)
  coeff : ℚ

mutual
/-- `collectFactors` from `Mul.flatten`: `Zero` annihilates the coefficient,
`One` contributes nothing, other numbers multiply `coeff` by `value **
exponent`, nested `Mul`s recurse with the same exponent, a `Pow` with a
numeric exponent recurses into its base with the multiplied exponent, a
`Pow` with a symbolic exponent is appended verbatim to `factors`, and
anything else accumulates `exponent` in the per-base-hash map (also
recording the base expression for that hash). -/
def collectFactors (e : Expression) (exponent : ℚ) (st : MulSt) : MulSt :=
  match e with
  | .num v =>
      if v = 0 then { st with coeff := 0 }
      else if v = 1 then st
      else { st with coeff := qmul st.coeff (qpow v exponent) }
  | .mul args => collectFactorsList args exponent st
  | .pow b ex =>
      match ex with
      | .num ev => collectFactors b (qmul ev exponent) st
      | _ => { st with factors := st.factors ++ [Expression.pow b ex] }
  | _ =>
      { st with
        baseHashToExpr := rmapSet st.baseHashToExpr e.hash e
        powers := mapSet st.powers e.hash (qadd (mapGetD st.powers e.hash) exponent) }

def collectFactorsList (es : List Expression) (exponent : ℚ) (st : MulSt) : MulSt :=
  match es with
  | [] => st
  | e :: rest => collectFactorsList rest exponent (collectFactors e exponent st)
end

/-- The top-level loop of `Mul.flatten`: stop before the next operand once
the coefficient is `0`. -/
def mulSeqFold (seq : List Expression) (st : MulSt) : MulSt :=
  match seq with
  | [] => st
  | e :: rest => if st.coeff = 0 then st else mulSeqFold rest (collectFactors e 1 st)

/-- Convert the accumulated per-base exponents back to `(base, exp)` pairs,
skipping exponents that cancelled to `0` and hashes without a recorded base. -/
def buildPowerPairs (entries : List (Nat × ℚ)) (reps : List (Nat × Expression)) :
    List (Expression × ℚ) :=
  entries.filterMap fun p =>
    match p with
    | (h, x) =>
      if x = 0 then none
      else
        match rmapGet reps h with
        | some b => some ((b, x) : Expression × ℚ)
        | none => none

/-- `powerPairs.sort((a, b) => a.base.compareTo(b.base))`: insertion step. -/
def insertPair (a : Expression × ℚ) : List (Expression × ℚ) → List (Expression × ℚ)
  | [] => [a]
  | b :: l => if a.1.compareTo b.1 ≤ 0 then a :: b :: l else b :: insertPair a l

/-- `powerPairs.sort((a, b) => a.base.compareTo(b.base))`. -/
def sortPairsCanon (l : List (Expression × ℚ)) : List (Expression × ℚ) := l.foldr insertPair []

/-- The `MulFlattenResult` record. -/
structure MulFlattenResult where
  factors : List Expression
  powers : List (Expression × ℚ)
  coeff : ℚ

/-- `Mul.flatten`. -/
def Mul.flatten (seq : List Expression) : MulFlattenResult :=
  let st := mulSeqFold seq ⟨[], [], [], 1⟩
  { factors := sortCanon st.factors
    powers := sortPairsCanon (buildPowerPairs st.powers st.baseHashToExpr)
    coeff := st.coeff }

/-- `Mul.create`: `ONE` on no operands, the sole operand unchanged on one,
else flatten; a `0` coefficient yields `ZERO`, no surviving factors or
powers yield the numeric coefficient, and otherwise the operand list is the
coefficient (when not `1`), the power-derived multiplicands (exponent-`1`
bases unwrapped), then the non-collectible factors. -/
def Mul.create (args : List Expression) : Expression :=
  match args with
  | [] => ONE
  | [a] => a
  | _ =>
    let fl := Mul.flatten args
    if fl.coeff = 0 then ZERO
    else if fl.factors.isEmpty && fl.powers.isEmpty then .num fl.coeff
    else
      let finalArgs :=
        (if fl.coeff = 1 then ([] : List Expression) else [Expression.num fl.coeff]) ++
          fl.powers.map (fun p =>
            match p with
            | (b, x) => if x = 1 then b else Pow.create b (.num x)) ++
          fl.factors
      match finalArgs with
      | [] => ONE
      | [x] => x
      | _ => .mul finalArgs

/-- The mutable state of `Add.flatten`'s `collectTerms` closure. -/
structure AddSt where
  terms : List (Nat × ℚ)
  coeff : ℚ

mutual
/-- `collectTerms` from `Add.flatten`: `Zero` contributes nothing, other
numbers add `value × coefficient` to the running constant, nested `Add`s
recurse with the same coefficient, a `Mul` splits into a numeric coefficient
and remaining term accumulated under the term's hash, and anything else
accumulates `coefficient` under its own hash. -/
def collectTerms (e : Expression) (coefficient : ℚ) (st : AddSt) : AddSt :=
  match e with
  | .num v =>
      if v = 0 then st
      else { st with coeff := qadd st.coeff (qmul v coefficient) }
  | .add args => collectTermsList args coefficient st
  | .mul args =>
      let p := extractCoeffTerm (.mul args)
      { st with
        terms := mapSet st.terms p.2.hash (qadd (mapGetD st.terms p.2.hash) (qmul p.1 coefficient)) }
  | _ =>
      { st with terms := mapSet st.terms e.hash (qadd (mapGetD st.terms e.hash) coefficient) }

def collectTermsList (es : List Expression) (coefficient : ℚ) (st : AddSt) : AddSt :=
  match es with
  | [] => st
  | e :: rest => collectTermsList rest coefficient (collectTerms e coefficient st)
end

/-- The top-level loop of `Add.flatten` over the operand sequence. -/
def addSeqFold (seq : List Expression) (st : AddSt) : AddSt :=
  match seq with
  | [] => st
  | e :: rest => addSeqFold rest (collectTerms e 1 st)

/-- The representative-term rescan of `Add.flatten`: the first match in
operand order, looking one level into a direct `Add` operand's own operands
(by hash only), at a `Mul` operand's extracted term, or at the operand
itself. -/
def findRep (seq : List Expression) (termHash : Nat) : Option Expression :=
  match seq with
  | [] => none
  | e :: rest =>
      match e with
      | .add args =>
          match args.find? (fun a => decide (a.hash = termHash)) with
          | some t => some t
          | none => findRep rest termHash
      | .mul args =>
          let p := extractCoeffTerm (.mul args)
          if p.2.hash = termHash then some p.2 else findRep rest termHash
      | _ => if e.hash = termHash then some e else findRep rest termHash

/-- Convert accumulated `(hash, coefficient)` entries back to term
expressions: skip cancelled (`0`) coefficients, recover a representative by
rescanning, skip hashes whose rescan fails, keep coefficient-`1` terms bare
and wrap others as `Mul.create(Number(coeff), term)`. -/
def buildTerms (entries : List (Nat × ℚ)) (seq : List Expression) : List Expression :=
  entries.filterMap fun p =>
    match p with
    | (h, v) =>
      if v = 0 then none
      else
        match findRep seq h with
        | none => none
        | some t => some (if v = 1 then t else Mul.create [.num v, t])

/-- The `FlattenResult` record. -/
structure FlattenResult where
  terms : List Expression
  coeff : ℚ

/-- `Add.flatten`. -/
def Add.flatten (seq : List Expression) : FlattenResult :=
  let st := addSeqFold seq ⟨[], 0⟩
  { terms := sortCanon (buildTerms st.terms seq), coeff := st.coeff }

/-- `Add.create`: `ZERO` on no operands, the sole operand unchanged on one,
else flatten; no surviving terms yield the numeric constant, a sole
surviving term with constant `0` is returned unwrapped, and otherwise the
operand list is the constant (when nonzero) followed by the sorted terms. -/
def Add.create (args : List Expression) : Expression :=
  match args with
  | [] => ZERO
  | [a] => a
  | _ =>
    let fl := Add.flatten args
    match fl.terms with
    | [] => .num fl.coeff
    | [t] =>
        if fl.coeff = 0 then t
        else .add (Expression.num fl.coeff :: [t])
    | ts => .add ((if fl.coeff = 0 then ([] : List Expression) else [Expression.num fl.coeff]) ++ ts)

/-- The two failure kinds of evaluation (`throw new Error(...)` sites in the
TypeScript backend, distinguished by message). -/
inductive EvalError where
  | UnboundSymbol (name : String)
  | Unevaluable (description : String)
deriving DecidableEq, Repr

instance : DecidableEq (Except EvalError ℚ) := fun a b =>
  match a, b with
  | .ok x, .ok y => decidable_of_iff (x = y) (by simp)
  | .error x, .error y => decidable_of_iff (x = y) (by simp)
  | .ok _, .error _ => isFalse (fun h => Except.noConfusion h)
  | .error _, .ok _ => isFalse (fun h => Except.noConfusion h)

mutual
/-- `TypeScriptBackend.evaluateNumerical`: numeric kinds return their value,
a symbol returns its binding or fails with `UnboundSymbol`, `Add`/`Mul`
accumulate a sum/product over recursively evaluated operands (first failure
propagates), `Pow` raises the evaluated base to the evaluated exponent. -/
def evaluateNumerical (e : Expression) (σ : String → Option ℚ) : Except EvalError ℚ :=
  match e with
  | .num v => .ok v
  | .sym n =>
      match σ n with
      | some v => .ok v
      | none => .error (.UnboundSymbol n)
  | .add args => evalSum args σ 0
  | .mul args => evalProd args σ 1
  | .pow b ex =>
      match evaluateNumerical b σ with
      | .error err => .error err
      | .ok bv =>
          match evaluateNumerical ex σ with
          | .error err => .error err
          | .ok ev => .ok (qpow bv ev)

def evalSum (args : List Expression) (σ : String → Option ℚ) (acc : ℚ) : Except EvalError ℚ :=
  match args with
  | [] => .ok acc
  | a :: rest =>
      match evaluateNumerical a σ with
      | .error err => .error err
      | .ok v => evalSum rest σ (qadd acc v)

def evalProd (args : List Expression) (σ : String → Option ℚ) (acc : ℚ) : Except EvalError ℚ :=
  match args with
  | [] => .ok acc
  | a :: rest =>
      match evaluateNumerical a σ with
      | .error err => .error err
      | .ok v => evalProd rest σ (qmul acc v)
end


/-- The `args` field: empty for leaves, the operand list for `Add`/`Mul`,
`[base, exponent]` for `Pow`. -/
def Expression.args : Expression → List Expression
  | .num _ => []
  | .sym _ => []
  | .add xs => xs
  | .mul xs => xs
  | .pow b e => [b, e]

mutual
/-- `getSymbols`: the names of all symbols in the subtree (the source
returns a `Set<string>`; the model returns a list whose membership is the
set's membership). -/
def getSymbols : Expression → List String
  | .num _ => []
  | .sym n => [n]
  | .add xs => getSymbolsList xs
  | .mul xs => getSymbolsList xs
  | .pow b e => getSymbols b ++ getSymbols e

def getSymbolsList : List Expression → List String
  | [] => []
  | e :: es => getSymbols e ++ getSymbolsList es
end

/-- `isNumericType` holds exactly on number nodes. -/
theorem isNumericType_iff (e : Expression) : isNumericType e.type = true ↔ ∃ v, e = .num v := by
  cases e with
  | num v =>
      simp only [Expression.type]
      split
      · simp [isNumericType]
      · split
        · simp [isNumericType]
        · split <;> simp [isNumericType]
  | sym n => simp [Expression.type, isNumericType]
  | add xs => simp [Expression.type, isNumericType]
  | mul xs => simp [Expression.type, isNumericType]
  | pow b ex => simp [Expression.type, isNumericType]

theorem equals_refl : ∀ a : Expression, a.equals a = true := by
  intro a
  induction a using Expression.strongInd with
  | ih a IH =>
    cases a with
    | num v => simp [Expression.equals]
    | sym n => simp [Expression.equals]
    | add xs =>
        have hxs : ∀ u ∈ xs, u.equals u = true := fun u hu =>
          IH u (by simp only [Expression.size]; have := size_lt_of_mem hu; omega)
        simp only [Expression.equals, Bool.and_eq_true, decide_eq_true_eq]
        refine ⟨by simp, ?_⟩
        clear IH
        induction xs with
        | nil => simp [eqList]
        | cons x xs ihxs =>
            simp only [eqList, Bool.and_eq_true]
            exact ⟨hxs x (List.mem_cons_self x xs),
              ihxs (fun u hu => hxs u (List.mem_cons_of_mem x hu))⟩
    | mul xs =>
        have hxs : ∀ u ∈ xs, u.equals u = true := fun u hu =>
          IH u (by simp only [Expression.size]; have := size_lt_of_mem hu; omega)
        simp only [Expression.equals, Bool.and_eq_true, decide_eq_true_eq]
        refine ⟨by simp, ?_⟩
        clear IH
        induction xs with
        | nil => simp [eqList]
        | cons x xs ihxs =>
            simp only [eqList, Bool.and_eq_true]
            exact ⟨hxs x (List.mem_cons_self x xs),
              ihxs (fun u hu => hxs u (List.mem_cons_of_mem x hu))⟩
    | pow b1 e1 =>
        simp only [Expression.equals, Bool.and_eq_true, decide_eq_true_eq]
        exact ⟨by simp, IH b1 (by simp only [Expression.size]; omega),
          IH e1 (by simp only [Expression.size]; omega)⟩

theorem equals_eq : ∀ a b : Expression, a.equals b = true → a = b := by
  intro a
  induction a using Expression.strongInd with
  | ih a IH =>
    have listCase :
        ∀ xs ys : List Expression,
          (∀ x ∈ xs, ∀ b : Expression, x.equals b = true → x = b) →
          eqList xs ys = true → xs = ys := by
      intro xs
      induction xs with
      | nil => intro ys _ h; cases ys with
          | nil => rfl
          | cons y ys => simp [eqList] at h
      | cons x xs ihx =>
          intro ys hmem h
          cases ys with
          | nil => simp [eqList] at h
          | cons y ys =>
              simp only [eqList, Bool.and_eq_true] at h
              rw [hmem x (List.mem_cons_self x xs) y h.1,
                ihx ys (fun u hu b => hmem u (List.mem_cons_of_mem x hu) b) h.2]
    intro b h
    cases a with
    | num v =>
        cases b <;> simp only [Expression.equals, Bool.and_eq_true, decide_eq_true_eq, Bool.false_eq_true, and_false] at h
        · exact congrArg Expression.num h.2
    | sym n =>
        cases b <;> simp only [Expression.equals, Bool.and_eq_true, decide_eq_true_eq, Bool.false_eq_true, and_false] at h
        · exact congrArg Expression.sym h.2
    | add xs =>
        cases b <;> simp only [Expression.equals, Bool.and_eq_true, decide_eq_true_eq, Bool.false_eq_true, and_false] at h
        · exact congrArg Expression.add (listCase xs _
            (fun x hx b => IH x (by simp only [Expression.size]; have := size_lt_of_mem hx; omega) b) h.2)
    | mul xs =>
        cases b <;> simp only [Expression.equals, Bool.and_eq_true, decide_eq_true_eq, Bool.false_eq_true, and_false] at h
        · exact congrArg Expression.mul (listCase xs _
            (fun x hx b => IH x (by simp only [Expression.size]; have := size_lt_of_mem hx; omega) b) h.2)
    | pow b1 e1 =>
        cases b <;> simp only [Expression.equals, Bool.and_eq_true, decide_eq_true_eq, Bool.false_eq_true, and_false] at h
        · obtain ⟨-, h1, h2⟩ := h
          rw [IH b1 (by simp only [Expression.size]; omega) _ h1,
            IH e1 (by simp only [Expression.size]; omega) _ h2]

theorem equals_eq_true_iff (a b : Expression) : a.equals b = true ↔ a = b :=
  ⟨equals_eq a b, fun h => h ▸ equals_refl a⟩

theorem isNumericType_num (v : ℚ) : isNumericType (Expression.num v).type = true := by
  simp only [Expression.type]
  split
  · rfl
  · split
    · rfl
    · split <;> rfl

/-- C9: `a.equals b` forces `a.hash = b.hash`, and even across hash
collisions `equals` never accepts structurally different trees — it agrees
exactly with structural equality (symbol ids standing for names). -/
theorem claim_c9_hash_equality_consistency (a b : Expression) :
    (a.equals b = true → a.hash = b.hash ∧ a = b) ∧ (a = b → a.equals b = true) := by
  constructor
  · intro h
    have heq := equals_eq a b h
    exact ⟨by rw [heq], heq⟩
  · intro h
    exact h ▸ equals_refl a

/-- Witness for C9 at a concrete pair: a canonically built sum and its
literal tree compare `equals`-true, hence hash-equal and equal. -/
theorem claim_c9_witness :
    (Add.create [.sym "x", .sym "y"]).hash = (Expression.add [.sym "x", .sym "y"]).hash ∧
      Add.create [.sym "x", .sym "y"] = Expression.add [.sym "x", .sym "y"] :=
  (claim_c9_hash_equality_consistency (Add.create [.sym "x", .sym "y"])
    (Expression.add [.sym "x", .sym "y"])).1 (by decide)

/-- C10: the `SymNumber` constructor assigns `Zero`/`One`/`NegativeOne` for
the values `0`/`1`/`-1` and `Number` only otherwise, so no `Number`-kind
node carries one of those three values, and a `Number`-kind node never has
the same value as a numeric-singleton-kind node. -/
theorem claim_c10_number_kinds :
    ((Expression.num 0).type = .Zero ∧ (Expression.num 1).type = .One ∧
      (Expression.num (-1)).type = .NegativeOne) ∧
    (∀ v : ℚ, (Expression.num v).type = .Number ↔ v ≠ 0 ∧ v ≠ 1 ∧ v ≠ -1) ∧
    (∀ e : Expression, e.type = .Number → ∃ v : ℚ, e = .num v ∧ v ≠ 0 ∧ v ≠ 1 ∧ v ≠ -1) ∧
    (∀ v w : ℚ, (Expression.num v).type = .Number → isNumericType (Expression.num w).type = true →
      (Expression.num w).type ≠ .Number → v ≠ w) := by
  have key : ∀ v : ℚ, (Expression.num v).type = .Number ↔ v ≠ 0 ∧ v ≠ 1 ∧ v ≠ -1 := by
    intro v
    simp only [Expression.type]
    split_ifs with h0 h1 hm
    · simp [h0]
    · simp [h1]
    · simp [hm]
    · simp [h0, h1, hm]
  refine ⟨⟨by decide, by decide, by decide⟩, key, ?_, ?_⟩
  · intro e h
    cases e with
    | num v => exact ⟨v, rfl, (key v).mp h⟩
    | sym n => simp [Expression.type] at h
    | add xs => simp [Expression.type] at h
    | mul xs => simp [Expression.type] at h
    | pow b ex => simp [Expression.type] at h
  · intro v w hv _ hw heq
    exact hw (heq ▸ hv)

/-- Witness for C10: `Number(5)` has kind `Number`, and a `Number`-kind node
never equals the value of a numeric singleton (e.g. `2 ≠ 1`). -/
theorem claim_c10_witness :
    (Expression.num 5).type = .Number ∧ (2 : ℚ) ≠ 1 :=
  ⟨(claim_c10_number_kinds.2.1 5).mpr (by norm_num),
    claim_c10_number_kinds.2.2.2 2 1 (by decide) (by decide) (by decide)⟩

/-- C6: `Pow.create`'s absorption table is applied in the source's fixed
order — exponent `Zero`, exponent `One`, base `Zero`, base `One`, numeric
evaluation, verbatim `Pow` node — and in particular `0 ** 0` yields `One`
because the exponent check comes first. -/
theorem claim_c6_pow_create_table :
    (∀ base exponent : Expression, exponent.type = .Zero → Pow.create base exponent = ONE) ∧
    (∀ base exponent : Expression, exponent.type ≠ .Zero → exponent.type = .One →
      Pow.create base exponent = base) ∧
    (∀ base exponent : Expression, exponent.type ≠ .Zero → exponent.type ≠ .One →
      base.type = .Zero → Pow.create base exponent = ZERO) ∧
    (∀ base exponent : Expression, exponent.type ≠ .Zero → exponent.type ≠ .One →
      base.type ≠ .Zero → base.type = .One → Pow.create base exponent = ONE) ∧
    (∀ bv ev : ℚ, (Expression.num ev).type ≠ .Zero → (Expression.num ev).type ≠ .One →
      (Expression.num bv).type ≠ .Zero → (Expression.num bv).type ≠ .One →
      Pow.create (.num bv) (.num ev) = .num (qpow bv ev)) ∧
    (∀ base exponent : Expression, exponent.type ≠ .Zero → exponent.type ≠ .One →
      base.type ≠ .Zero → base.type ≠ .One →
      (isNumericType base.type = false ∨ isNumericType exponent.type = false) →
      Pow.create base exponent = .pow base exponent) ∧
    Pow.create (.num 0) (.num 0) = ONE := by
  refine ⟨?_, ?_, ?_, ?_, ?_, ?_, by decide⟩
  · intro base exponent he
    simp [Pow.create, he]
  · intro base exponent he0 he1
    simp [Pow.create, he0, he1]
  · intro base exponent he0 he1 hb0
    simp [Pow.create, he0, he1, hb0]
  · intro base exponent he0 he1 hb0 hb1
    simp [Pow.create, he0, he1, hb0, hb1]
  · intro bv ev he0 he1 hb0 hb1
    simp [Pow.create, he0, he1, hb0, hb1]
  · intro base exponent he0 he1 hb0 hb1 h5
    rcases h5 with h5 | h5
    · cases base with
      | num bv => rw [isNumericType_num] at h5; exact Bool.noConfusion h5
      | sym n => cases exponent <;> simp [Pow.create, he0, he1, hb0, hb1]
      | add xs => cases exponent <;> simp [Pow.create, he0, he1, hb0, hb1]
      | mul xs => cases exponent <;> simp [Pow.create, he0, he1, hb0, hb1]
      | pow pb pe => cases exponent <;> simp [Pow.create, he0, he1, hb0, hb1]
    · cases exponent with
      | num ev => rw [isNumericType_num] at h5; exact Bool.noConfusion h5
      | sym n => cases base <;> simp [Pow.create, he0, he1, hb0, hb1]
      | add xs => cases base <;> simp [Pow.create, he0, he1, hb0, hb1]
      | mul xs => cases base <;> simp [Pow.create, he0, he1, hb0, hb1]
      | pow pb pe => cases base <;> simp [Pow.create, he0, he1, hb0, hb1]

/-- Witness for C6 at concrete inputs: `x ** 0 = One` (first row of the
table) and `2 ** 3 = Number(8)` (numeric evaluation row). -/
theorem claim_c6_witness :
    Pow.create (.sym "x") (.num 0) = ONE ∧ Pow.create (.num 2) (.num 3) = .num (qpow 2 3) :=
  ⟨claim_c6_pow_create_table.1 (.sym "x") (.num 0) (by decide),
    claim_c6_pow_create_table.2.2.2.2.1 2 3 (by decide) (by decide) (by decide) (by decide)⟩

/-- C1 fails on the code: with `a = Mul.create(Number(2), x)`, `b = y`,
`c = z`, the nested construction drops the `2·x` term entirely (the
representative rescan never extracts a `Mul`-wrapped term out of an `Add`
operand), so the two sides differ. -/
theorem claim_c1_assoc_collapse_bug :
    (Add.create [Add.create [Mul.create [.num 2, .sym "x"], .sym "y"], .sym "z"]).equals
        (Add.create [Mul.create [.num 2, .sym "x"], .sym "y", .sym "z"]) = false ∧
    Add.create [Add.create [Mul.create [.num 2, .sym "x"], .sym "y"], .sym "z"] =
      .add [.sym "y", .sym "z"] ∧
    Add.create [Mul.create [.num 2, .sym "x"], .sym "y", .sym "z"] =
      .add [.sym "y", .sym "z", .mul [.num 2, .sym "x"]] := by
  refine ⟨by decide, by decide, by decide⟩

/-- C2 fails on the code: `e = Add.create(Mul.create(2, x+y),
Mul.create(-1, x+y), z)` evaluates to the non-canonical tree
`Add [z, Add [x, y]]` (coefficients `2` and `-1` cancel to `1`, and the
bare representative — itself an `Add` — is pushed as a term), and re-running
`Add.create` over its own operand list yields `Add [x, y, z]` instead. -/
theorem claim_c2_idempotence_bug :
    Add.create [Mul.create [.num 2, Add.create [.sym "x", .sym "y"]],
        Mul.create [.num (-1), Add.create [.sym "x", .sym "y"]], .sym "z"] =
      .add [.sym "z", .add [.sym "x", .sym "y"]] ∧
    (Add.create (Expression.add [.sym "z", .add [.sym "x", .sym "y"]]).args).equals
        (.add [.sym "z", .add [.sym "x", .sym "y"]]) = false ∧
    Add.create (Expression.add [.sym "z", .add [.sym "x", .sym "y"]]).args =
      .add [.sym "x", .sym "y", .sym "z"] := by
  refine ⟨by decide, by decide, by decide⟩

/-- C5 fails on the code: the reachable non-numeric expression
`x0 = Add [z, Add [x, y]]` (built by `Add.create`, see the C2 theorem) has
`Add.create(x0, Number(0)) = z`, dropping both nested terms instead of
returning `x0`. -/
theorem claim_c5_absorption_bug :
    isNumericType (Expression.add [.sym "z", .add [.sym "x", .sym "y"]]).type = false ∧
    (Add.create [.add [.sym "z", .add [.sym "x", .sym "y"]], .num 0]).equals
        (.add [.sym "z", .add [.sym "x", .sym "y"]]) = false ∧
    Add.create [.add [.sym "z", .add [.sym "x", .sym "y"]], .num 0] = .sym "z" := by
  refine ⟨by decide, by decide, by decide⟩


/-- Evaluation of a list of operands in order, propagating the first
failure (the elementwise view of the backend's accumulation loops). -/
def evalList (args : List Expression) (σ : String → Option ℚ) : Except EvalError (List ℚ) :=
  match args with
  | [] => .ok []
  | a :: rest =>
      match evaluateNumerical a σ with
      | .error err => .error err
      | .ok v =>
          match evalList rest σ with
          | .error err => .error err
          | .ok vs => .ok (v :: vs)

theorem evalSum_ok_of {σ : String → Option ℚ} :
    ∀ (args : List Expression) (vs : List ℚ), evalList args σ = .ok vs →
      ∀ acc, evalSum args σ acc = .ok (acc + vs.sum) := by
  intro args
  induction args with
  | nil =>
      intro vs h acc
      simp only [evalList] at h
      injection h with h
      subst h
      simp [evalSum]
  | cons a rest ih =>
      intro vs h acc
      simp only [evalList] at h
      cases hv : evaluateNumerical a σ with
      | error err => rw [hv] at h; exact Except.noConfusion h
      | ok v =>
          rw [hv] at h
          cases hrest : evalList rest σ with
          | error err => rw [hrest] at h; exact Except.noConfusion h
          | ok vs2 =>
              rw [hrest] at h
              injection h with h
              subst h
              simp only [evalSum, hv]
              rw [ih vs2 hrest (qadd acc v), qadd_eq]
              simp only [List.sum_cons]
              ring_nf

theorem evalSum_err_of {σ : String → Option ℚ} :
    ∀ (args : List Expression) (err : EvalError), evalList args σ = .error err →
      ∀ acc, evalSum args σ acc = .error err := by
  intro args
  induction args with
  | nil => intro err h acc; simp only [evalList] at h; exact Except.noConfusion h
  | cons a rest ih =>
      intro err h acc
      simp only [evalList] at h
      cases hv : evaluateNumerical a σ with
      | error e2 =>
          rw [hv] at h
          injection h with h
          subst h
          simp [evalSum, hv]
      | ok v =>
          rw [hv] at h
          cases hrest : evalList rest σ with
          | error e2 =>
              rw [hrest] at h
              injection h with h
              subst h
              simp only [evalSum, hv]
              exact ih e2 hrest (qadd acc v)
          | ok vs2 => rw [hrest] at h; exact Except.noConfusion h

theorem evalProd_ok_of {σ : String → Option ℚ} :
    ∀ (args : List Expression) (vs : List ℚ), evalList args σ = .ok vs →
      ∀ acc, evalProd args σ acc = .ok (acc * vs.prod) := by
  intro args
  induction args with
  | nil =>
      intro vs h acc
      simp only [evalList] at h
      injection h with h
      subst h
      simp [evalProd]
  | cons a rest ih =>
      intro vs h acc
      simp only [evalList] at h
      cases hv : evaluateNumerical a σ with
      | error err => rw [hv] at h; exact Except.noConfusion h
      | ok v =>
          rw [hv] at h
          cases hrest : evalList rest σ with
          | error err => rw [hrest] at h; exact Except.noConfusion h
          | ok vs2 =>
              rw [hrest] at h
              injection h with h
              subst h
              simp only [evalProd, hv]
              rw [ih vs2 hrest (qmul acc v), qmul_eq]
              simp only [List.prod_cons]
              ring_nf

theorem evalProd_err_of {σ : String → Option ℚ} :
    ∀ (args : List Expression) (err : EvalError), evalList args σ = .error err →
      ∀ acc, evalProd args σ acc = .error err := by
  intro args
  induction args with
  | nil => intro err h acc; simp only [evalList] at h; exact Except.noConfusion h
  | cons a rest ih =>
      intro err h acc
      simp only [evalList] at h
      cases hv : evaluateNumerical a σ with
      | error e2 =>
          rw [hv] at h
          injection h with h
          subst h
          simp [evalProd, hv]
      | ok v =>
          rw [hv] at h
          cases hrest : evalList rest σ with
          | error e2 =>
              rw [hrest] at h
              injection h with h
              subst h
              simp only [evalProd, hv]
              exact ih e2 hrest (qmul acc v)
          | ok vs2 => rw [hrest] at h; exact Except.noConfusion h

theorem evalList_ok_iff {σ : String → Option ℚ} (args : List Expression) :
    (∃ vs, evalList args σ = .ok vs) ↔ ∀ a ∈ args, ∃ v, evaluateNumerical a σ = .ok v := by
  induction args with
  | nil => simp [evalList]
  | cons a rest ih =>
      constructor
      · rintro ⟨vs, h⟩ b hb
        simp only [evalList] at h
        cases hv : evaluateNumerical a σ with
        | error err => rw [hv] at h; exact Except.noConfusion h
        | ok v =>
            rw [hv] at h
            cases hrest : evalList rest σ with
            | error err => rw [hrest] at h; exact Except.noConfusion h
            | ok vs2 =>
                rcases List.mem_cons.mp hb with rfl | hb2
                · exact ⟨v, hv⟩
                · exact (ih.mp ⟨vs2, hrest⟩) b hb2
      · intro h
        obtain ⟨v, hv⟩ := h a (List.mem_cons_self a rest)
        obtain ⟨vs2, hrest⟩ := ih.mpr (fun b hb => h b (List.mem_cons_of_mem a hb))
        exact ⟨v :: vs2, by simp only [evalList, hv, hrest]⟩

theorem evalList_err {σ : String → Option ℚ} :
    ∀ (args : List Expression) (err : EvalError), evalList args σ = .error err →
      ∃ a ∈ args, evaluateNumerical a σ = .error err := by
  intro args
  induction args with
  | nil => intro err h; simp only [evalList] at h; exact Except.noConfusion h
  | cons a rest ih =>
      intro err h
      simp only [evalList] at h
      cases hv : evaluateNumerical a σ with
      | error e2 =>
          rw [hv] at h
          injection h with h
          exact ⟨a, List.mem_cons_self a rest, h ▸ hv⟩
      | ok v =>
          rw [hv] at h
          cases hrest : evalList rest σ with
          | error e2 =>
              rw [hrest] at h
              injection h with h
              subst h
              obtain ⟨b, hb, hbe⟩ := ih e2 hrest
              exact ⟨b, List.mem_cons_of_mem a hb, hbe⟩
          | ok vs2 => rw [hrest] at h; exact Except.noConfusion h

theorem mem_getSymbolsList :
    ∀ (args : List Expression) (n : String),
      n ∈ getSymbolsList args ↔ ∃ a ∈ args, n ∈ getSymbols a := by
  intro args n
  induction args with
  | nil => simp [getSymbolsList]
  | cons a rest ih => simp [getSymbolsList, List.mem_append, ih]

theorem eval_add_def (args : List Expression) (σ : String → Option ℚ) :
    evaluateNumerical (.add args) σ = evalSum args σ 0 := rfl

theorem eval_mul_def (args : List Expression) (σ : String → Option ℚ) :
    evaluateNumerical (.mul args) σ = evalProd args σ 1 := rfl

theorem eval_ok_iff (e : Expression) (σ : String → Option ℚ) :
    (∃ v, evaluateNumerical e σ = .ok v) ↔ ∀ n ∈ getSymbols e, ∃ v, σ n = some v := by
  induction e using Expression.strongInd with
  | ih e IH =>
    cases e with
    | num v => simp [evaluateNumerical, getSymbols]
    | sym n =>
        simp only [evaluateNumerical, getSymbols, List.mem_singleton]
        cases h : σ n with
        | none => simp [h]
        | some v => simp [h]
    | add args =>
        rw [eval_add_def]
        have step : (∃ v, evalSum args σ 0 = .ok v) ↔ ∃ vs, evalList args σ = .ok vs := by
          constructor
          · rintro ⟨v, hv⟩
            cases h : evalList args σ with
            | error err => rw [evalSum_err_of args err h 0] at hv; exact Except.noConfusion hv
            | ok vs => exact ⟨vs, rfl⟩
          · rintro ⟨vs, h⟩
            exact ⟨0 + vs.sum, evalSum_ok_of args vs h 0⟩
        rw [step, evalList_ok_iff]
        simp only [getSymbols, mem_getSymbolsList]
        constructor
        · intro h n ⟨a, ha, hn⟩
          exact (IH a (by simp only [Expression.size]; have := size_lt_of_mem ha; omega)).mp
            (h a ha) n hn
        · intro h a ha
          exact (IH a (by simp only [Expression.size]; have := size_lt_of_mem ha; omega)).mpr
            (fun n hn => h n ⟨a, ha, hn⟩)
    | mul args =>
        rw [eval_mul_def]
        have step : (∃ v, evalProd args σ 1 = .ok v) ↔ ∃ vs, evalList args σ = .ok vs := by
          constructor
          · rintro ⟨v, hv⟩
            cases h : evalList args σ with
            | error err => rw [evalProd_err_of args err h 1] at hv; exact Except.noConfusion hv
            | ok vs => exact ⟨vs, rfl⟩
          · rintro ⟨vs, h⟩
            exact ⟨1 * vs.prod, evalProd_ok_of args vs h 1⟩
        rw [step, evalList_ok_iff]
        simp only [getSymbols, mem_getSymbolsList]
        constructor
        · intro h n ⟨a, ha, hn⟩
          exact (IH a (by simp only [Expression.size]; have := size_lt_of_mem ha; omega)).mp
            (h a ha) n hn
        · intro h a ha
          exact (IH a (by simp only [Expression.size]; have := size_lt_of_mem ha; omega)).mpr
            (fun n hn => h n ⟨a, ha, hn⟩)
    | pow b ex =>
        have hb := IH b (by simp only [Expression.size]; omega)
        have he := IH ex (by simp only [Expression.size]; omega)
        simp only [getSymbols, List.mem_append]
        constructor
        · rintro ⟨v, hv⟩ n hn
          simp only [evaluateNumerical] at hv
          cases h1 : evaluateNumerical b σ with
          | error err => rw [h1] at hv; exact Except.noConfusion hv
          | ok bv =>
              rw [h1] at hv
              cases h2 : evaluateNumerical ex σ with
              | error err => rw [h2] at hv; exact Except.noConfusion hv
              | ok ev =>
                  rcases hn with hn | hn
                  · exact hb.mp ⟨bv, h1⟩ n hn
                  · exact he.mp ⟨ev, h2⟩ n hn
        · intro h
          obtain ⟨bv, h1⟩ := hb.mpr (fun n hn => h n (Or.inl hn))
          obtain ⟨ev, h2⟩ := he.mpr (fun n hn => h n (Or.inr hn))
          exact ⟨qpow bv ev, by simp only [evaluateNumerical, h1, h2]⟩

theorem eval_error_shape (e : Expression) (σ : String → Option ℚ) (err : EvalError)
    (h : evaluateNumerical e σ = .error err) :
    ∃ n, err = .UnboundSymbol n ∧ σ n = none ∧ n ∈ getSymbols e := by
  induction e using Expression.strongInd with
  | ih e IH =>
    cases e with
    | num v => simp [evaluateNumerical] at h
    | sym n =>
        simp only [evaluateNumerical] at h
        cases hσ : σ n with
        | none =>
            rw [hσ] at h
            injection h with h
            exact ⟨n, h.symm, hσ, by simp [getSymbols]⟩
        | some v => rw [hσ] at h; exact Except.noConfusion h
    | add args =>
        rw [eval_add_def] at h
        cases hl : evalList args σ with
        | ok vs => rw [evalSum_ok_of args vs hl 0] at h; exact Except.noConfusion h
        | error e2 =>
            rw [evalSum_err_of args e2 hl 0] at h
            injection h with h
            subst h
            obtain ⟨a, ha, hae⟩ := evalList_err args e2 hl
            obtain ⟨n, hn1, hn2, hn3⟩ :=
              IH a (by simp only [Expression.size]; have := size_lt_of_mem ha; omega) hae
            exact ⟨n, hn1, hn2, by
              simp only [getSymbols, mem_getSymbolsList]; exact ⟨a, ha, hn3⟩⟩
    | mul args =>
        rw [eval_mul_def] at h
        cases hl : evalList args σ with
        | ok vs => rw [evalProd_ok_of args vs hl 1] at h; exact Except.noConfusion h
        | error e2 =>
            rw [evalProd_err_of args e2 hl 1] at h
            injection h with h
            subst h
            obtain ⟨a, ha, hae⟩ := evalList_err args e2 hl
            obtain ⟨n, hn1, hn2, hn3⟩ :=
              IH a (by simp only [Expression.size]; have := size_lt_of_mem ha; omega) hae
            exact ⟨n, hn1, hn2, by
              simp only [getSymbols, mem_getSymbolsList]; exact ⟨a, ha, hn3⟩⟩
    | pow b ex =>
        simp only [evaluateNumerical] at h
        cases h1 : evaluateNumerical b σ with
        | error e2 =>
            rw [h1] at h
            injection h with h
            subst h
            obtain ⟨n, hn1, hn2, hn3⟩ := IH b (by simp only [Expression.size]; omega) h1
            exact ⟨n, hn1, hn2, by simp only [getSymbols, List.mem_append]; exact Or.inl hn3⟩
        | ok bv =>
            rw [h1] at h
            cases h2 : evaluateNumerical ex σ with
            | error e2 =>
                rw [h2] at h
                injection h with h
                subst h
                obtain ⟨n, hn1, hn2, hn3⟩ := IH ex (by simp only [Expression.size]; omega) h2
                exact ⟨n, hn1, hn2, by simp only [getSymbols, List.mem_append]; exact Or.inr hn3⟩
            | ok ev => rw [h2] at h; exact Except.noConfusion h

/-- C8: `evaluateNumerical` is the pure recursive reduction — numbers return
their value, a symbol its binding, `Add`/`Mul` the sum/product of the
operands' values, `Pow` the power of the evaluated base and exponent — and
every failure is an `UnboundSymbol` at a symbol of the tree that is absent
from the substitution map (success holds exactly when all symbols are
bound). The two concrete scenarios of the spec evaluate as claimed. -/
theorem claim_c8_evaluation :
    (∀ (v : ℚ) (σ : String → Option ℚ), evaluateNumerical (.num v) σ = .ok v) ∧
    (∀ (n : String) (σ : String → Option ℚ) (v : ℚ), σ n = some v →
      evaluateNumerical (.sym n) σ = .ok v) ∧
    (∀ (n : String) (σ : String → Option ℚ), σ n = none →
      evaluateNumerical (.sym n) σ = .error (.UnboundSymbol n)) ∧
    (∀ (args : List Expression) (σ : String → Option ℚ) (vs : List ℚ),
      evalList args σ = .ok vs → evaluateNumerical (.add args) σ = .ok vs.sum) ∧
    (∀ (args : List Expression) (σ : String → Option ℚ) (vs : List ℚ),
      evalList args σ = .ok vs → evaluateNumerical (.mul args) σ = .ok vs.prod) ∧
    (∀ (b ex : Expression) (σ : String → Option ℚ) (bv ev : ℚ),
      evaluateNumerical b σ = .ok bv → evaluateNumerical ex σ = .ok ev →
      evaluateNumerical (.pow b ex) σ = .ok (qpow bv ev)) ∧
    (∀ (e : Expression) (σ : String → Option ℚ) (err : EvalError),
      evaluateNumerical e σ = .error err →
      ∃ n, err = .UnboundSymbol n ∧ σ n = none ∧ n ∈ getSymbols e) ∧
    (∀ (e : Expression) (σ : String → Option ℚ),
      (∃ v, evaluateNumerical e σ = .ok v) ↔ ∀ n ∈ getSymbols e, ∃ v, σ n = some v) ∧
    evaluateNumerical (.sym "x") (fun _ => none) = .error (.UnboundSymbol "x") ∧
    evaluateNumerical (Mul.create [Add.create [.sym "x", .num 1], Add.create [.sym "x", .num 2]])
      (fun n => if n = "x" then some 3 else none) = .ok 20 := by
  refine ⟨fun v σ => rfl, ?_, ?_, ?_, ?_, ?_,
    eval_error_shape, eval_ok_iff, by decide, by decide⟩
  · intro n σ v h
    simp [evaluateNumerical, h]
  · intro n σ h
    simp [evaluateNumerical, h]
  · intro args σ vs h
    rw [eval_add_def, evalSum_ok_of args vs h 0, zero_add]
  · intro args σ vs h
    rw [eval_mul_def, evalProd_ok_of args vs h 1, one_mul]
  · intro b ex σ bv ev h1 h2
    simp [evaluateNumerical, h1, h2]

/-- Witness for C8 at concrete inputs: a bound symbol evaluates to its
binding, and a concrete power evaluates numerically. -/
theorem claim_c8_witness :
    evaluateNumerical (.sym "q") (fun n => if n = "q" then some 7 else none) = .ok 7 ∧
    evaluateNumerical (.pow (.sym "q") (.num 2))
      (fun n => if n = "q" then some 3 else none) = .ok (qpow 3 2) :=
  ⟨claim_c8_evaluation.2.1 "q" (fun n => if n = "q" then some 7 else none) 7 (by decide),
    claim_c8_evaluation.2.2.2.2.2.1 (.sym "q") (.num 2)
      (fun n => if n = "q" then some 3 else none) 3 2 (by decide) (by decide)⟩


theorem charToNat_inj {a b : Char} (h : a.toNat = b.toNat) : a = b := by
  cases a with
  | mk va ha =>
    cases b with
    | mk vb hb =>
      have : va = vb := by
        cases va
        cases vb
        simp only [Char.toNat, UInt32.toNat] at h
        congr 1
        exact BitVec.toNat_injective h
      subst this
      rfl

theorem typeOrder_num_le (v : ℚ) : TYPE_ORDER (Expression.num v).type ≤ 3 := by
  simp only [Expression.type]
  split_ifs <;> simp [TYPE_ORDER]

theorem typeOrder_sym (n : String) : TYPE_ORDER (Expression.sym n).type = 4 := rfl

theorem typeOrder_pow (b e : Expression) : TYPE_ORDER (Expression.pow b e).type = 5 := rfl

theorem typeOrder_mul (xs : List Expression) : TYPE_ORDER (Expression.mul xs).type = 6 := rfl

theorem typeOrder_add (xs : List Expression) : TYPE_ORDER (Expression.add xs).type = 7 := rfl

theorem qofInt_eq_zero_iff (i : Int) : qofInt i = 0 ↔ i = 0 := by
  rw [qofInt_eq]
  exact_mod_cast Int.cast_eq_zero

theorem qofInt_nonpos_iff (i : Int) : qofInt i ≤ 0 ↔ i ≤ 0 := by
  rw [qofInt_eq]
  exact_mod_cast Int.cast_nonpos

theorem qofInt_neg (i : Int) : qofInt (-i) = -qofInt i := by
  rw [qofInt_eq, qofInt_eq]
  push_cast
  ring

/-- Type-order equality forces the two nodes into the same constructor class. -/
theorem type_order_classes {a b : Expression}
    (h : TYPE_ORDER a.type = TYPE_ORDER b.type) :
    (∃ v w, a = .num v ∧ b = .num w) ∨ (∃ n m, a = .sym n ∧ b = .sym m) ∨
    (∃ xs ys, a = .add xs ∧ b = .add ys) ∨ (∃ xs ys, a = .mul xs ∧ b = .mul ys) ∨
    (∃ b1 e1 b2 e2, a = .pow b1 e1 ∧ b = .pow b2 e2) := by
  cases a with
  | num v =>
      cases b with
      | num w => exact Or.inl ⟨v, w, rfl, rfl⟩
      | sym m => exact absurd h (by have := typeOrder_num_le v; rw [typeOrder_sym]; omega)
      | add ys => exact absurd h (by have := typeOrder_num_le v; rw [typeOrder_add]; omega)
      | mul ys => exact absurd h (by have := typeOrder_num_le v; rw [typeOrder_mul]; omega)
      | pow b2 e2 => exact absurd h (by have := typeOrder_num_le v; rw [typeOrder_pow]; omega)
  | sym n =>
      cases b with
      | num w => exact absurd h (by have := typeOrder_num_le w; rw [typeOrder_sym]; omega)
      | sym m => exact Or.inr (Or.inl ⟨n, m, rfl, rfl⟩)
      | add ys => exact absurd h (by rw [typeOrder_sym, typeOrder_add]; omega)
      | mul ys => exact absurd h (by rw [typeOrder_sym, typeOrder_mul]; omega)
      | pow b2 e2 => exact absurd h (by rw [typeOrder_sym, typeOrder_pow]; omega)
  | add xs =>
      cases b with
      | num w => exact absurd h (by have := typeOrder_num_le w; rw [typeOrder_add]; omega)
      | sym m => exact absurd h (by rw [typeOrder_add, typeOrder_sym]; omega)
      | add ys => exact Or.inr (Or.inr (Or.inl ⟨xs, ys, rfl, rfl⟩))
      | mul ys => exact absurd h (by rw [typeOrder_add, typeOrder_mul]; omega)
      | pow b2 e2 => exact absurd h (by rw [typeOrder_add, typeOrder_pow]; omega)
  | mul xs =>
      cases b with
      | num w => exact absurd h (by have := typeOrder_num_le w; rw [typeOrder_mul]; omega)
      | sym m => exact absurd h (by rw [typeOrder_mul, typeOrder_sym]; omega)
      | add ys => exact absurd h (by rw [typeOrder_mul, typeOrder_add]; omega)
      | mul ys => exact Or.inr (Or.inr (Or.inr (Or.inl ⟨xs, ys, rfl, rfl⟩)))
      | pow b2 e2 => exact absurd h (by rw [typeOrder_mul, typeOrder_pow]; omega)
  | pow b1 e1 =>
      cases b with
      | num w => exact absurd h (by have := typeOrder_num_le w; rw [typeOrder_pow]; omega)
      | sym m => exact absurd h (by rw [typeOrder_pow, typeOrder_sym]; omega)
      | add ys => exact absurd h (by rw [typeOrder_pow, typeOrder_add]; omega)
      | mul ys => exact absurd h (by rw [typeOrder_pow, typeOrder_mul]; omega)
      | pow b2 e2 => exact Or.inr (Or.inr (Or.inr (Or.inr ⟨b1, e1, b2, e2, rfl, rfl⟩)))

theorem strCmp_eq_zero_iff : ∀ s t : List Char, strCmp s t = 0 ↔ s = t := by
  intro s
  induction s with
  | nil =>
      intro t
      cases t with
      | nil => simp [strCmp]
      | cons b t =>
          simp only [strCmp]
          constructor
          · intro hc; norm_num at hc
          · intro hc; exact absurd hc (by simp)
  | cons a s ih =>
      intro t
      cases t with
      | nil =>
          simp only [strCmp]
          constructor
          · intro hc; norm_num at hc
          · intro hc; exact absurd hc (by simp)
      | cons b t =>
          simp only [strCmp]
          split_ifs with h1 h2
          · constructor
            · intro hc; norm_num at hc
            · rintro heq
              injection heq with heq1 heq2
              subst heq1
              omega
          · constructor
            · intro hc; norm_num at hc
            · rintro heq
              injection heq with heq1 heq2
              subst heq1
              omega
          · have hab : a = b := charToNat_inj (by omega)
            subst hab
            rw [ih t]
            simp

theorem strCmp_neg : ∀ s t : List Char, strCmp t s = -strCmp s t := by
  intro s
  induction s with
  | nil =>
      intro t
      cases t with
      | nil => simp [strCmp]
      | cons b t => simp [strCmp]
  | cons a s ih =>
      intro t
      cases t with
      | nil => simp [strCmp]
      | cons b t =>
          simp only [strCmp]
          split_ifs <;>
            first
              | exact ih t
              | omega
              | (norm_num; done)

theorem strCmp_trans :
    ∀ s t u : List Char, strCmp s t ≤ 0 → strCmp t u ≤ 0 → strCmp s u ≤ 0 := by
  intro s
  induction s with
  | nil =>
      intro t u _ _
      cases u with
      | nil => simp [strCmp]
      | cons c u => simp only [strCmp]; norm_num
  | cons a s ih =>
      intro t u h1 h2
      cases t with
      | nil => simp only [strCmp] at h1; norm_num at h1
      | cons b t =>
          cases u with
          | nil => simp only [strCmp] at h2; norm_num at h2
          | cons c u =>
              simp only [strCmp] at h1 h2 ⊢
              split_ifs at h1 h2 ⊢ <;>
                first
                  | (exfalso; revert h1; norm_num; done)
                  | (exfalso; revert h2; norm_num; done)
                  | exact ih t u h1 h2
                  | omega
                  | (norm_num; done)


theorem compareTo_of_ne {a b : Expression} (h : TYPE_ORDER a.type ≠ TYPE_ORDER b.type) :
    a.compareTo b = qofInt ((TYPE_ORDER a.type : Int) - (TYPE_ORDER b.type : Int)) := by
  conv_lhs => unfold Expression.compareTo
  rw [if_pos h]

theorem compareTo_num_num (v w : ℚ)
    (h : TYPE_ORDER (Expression.num v).type = TYPE_ORDER (Expression.num w).type) :
    (Expression.num v).compareTo (Expression.num w) = qsub v w := by
  conv_lhs => unfold Expression.compareTo
  rw [if_neg (not_not_intro h)]

theorem compareTo_sym_sym (n m : String) :
    (Expression.sym n).compareTo (Expression.sym m) = strCmp n.data m.data := by
  conv_lhs => unfold Expression.compareTo
  rw [if_neg (not_not_intro (show TYPE_ORDER (Expression.sym n).type =
    TYPE_ORDER (Expression.sym m).type from rfl))]

theorem compareTo_pow_pow (b1 e1 b2 e2 : Expression) :
    (Expression.pow b1 e1).compareTo (Expression.pow b2 e2) =
      if b1.compareTo b2 ≠ 0 then b1.compareTo b2 else e1.compareTo e2 := by
  conv_lhs => unfold Expression.compareTo
  rw [if_neg (not_not_intro (show TYPE_ORDER (Expression.pow b1 e1).type =
    TYPE_ORDER (Expression.pow b2 e2).type from rfl))]

theorem compareTo_add_add (xs ys : List Expression) :
    (Expression.add xs).compareTo (Expression.add ys) = cmpList xs ys := by
  conv_lhs => unfold Expression.compareTo
  rw [if_neg (not_not_intro (show TYPE_ORDER (Expression.add xs).type =
    TYPE_ORDER (Expression.add ys).type from rfl))]

theorem compareTo_mul_mul (xs ys : List Expression) :
    (Expression.mul xs).compareTo (Expression.mul ys) = cmpList xs ys := by
  conv_lhs => unfold Expression.compareTo
  rw [if_neg (not_not_intro (show TYPE_ORDER (Expression.mul xs).type =
    TYPE_ORDER (Expression.mul ys).type from rfl))]

theorem cmpList_nil (ys : List Expression) :
    cmpList [] ys = qofInt ((0 : Int) - (ys.length : Int)) := rfl

theorem cmpList_cons_nil (x : Expression) (xs : List Expression) :
    cmpList (x :: xs) [] = qofInt (((x :: xs).length : Int) - (0 : Int)) := rfl

theorem cmpList_cons_cons (x y : Expression) (xs ys : List Expression) :
    cmpList (x :: xs) (y :: ys) =
      if x.compareTo y ≠ 0 then x.compareTo y else cmpList xs ys := rfl

theorem cmp_eq_zero_iff : ∀ a b : Expression, a.compareTo b = 0 ↔ a = b := by
  intro a
  induction a using Expression.strongInd with
  | ih a IH =>
    have listCase : ∀ xs ys : List Expression,
        (∀ x ∈ xs, ∀ b : Expression, x.compareTo b = 0 ↔ x = b) →
        (cmpList xs ys = 0 ↔ xs = ys) := by
      intro xs
      induction xs with
      | nil =>
          intro ys _
          cases ys with
          | nil => simp [cmpList_nil, qofInt_eq_zero_iff]
          | cons y ys =>
              rw [cmpList_nil, qofInt_eq_zero_iff]
              constructor
              · intro hc; exfalso; simp at hc; omega
              · intro hc; exact absurd hc (by simp)
      | cons x xs ihx =>
          intro ys hmem
          cases ys with
          | nil =>
              rw [cmpList_cons_nil, qofInt_eq_zero_iff]
              constructor
              · intro hc; exfalso; simp at hc; omega
              · intro hc; exact absurd hc (by simp)
          | cons y ys =>
              rw [cmpList_cons_cons]
              split_ifs with hc
              · constructor
                · intro h0; exact absurd h0 hc
                · intro heq
                  injection heq with heq1 heq2
                  exact absurd ((hmem x (List.mem_cons_self x xs) y).mpr heq1) hc
              · rw [not_not] at hc
                have hx : x = y := (hmem x (List.mem_cons_self x xs) y).mp hc
                subst hx
                rw [ihx ys (fun u hu b => hmem u (List.mem_cons_of_mem x hu) b)]
                simp
    intro b
    by_cases hT : TYPE_ORDER a.type = TYPE_ORDER b.type
    · rcases type_order_classes hT with ⟨v, w, rfl, rfl⟩ | ⟨n, m, rfl, rfl⟩ |
        ⟨xs, ys, rfl, rfl⟩ | ⟨xs, ys, rfl, rfl⟩ | ⟨b1, e1, b2, e2, rfl, rfl⟩
      · rw [compareTo_num_num v w hT, qsub_eq, sub_eq_zero]
        simp
      · rw [compareTo_sym_sym, strCmp_eq_zero_iff]
        constructor
        · intro hd; exact congrArg Expression.sym (String.ext hd)
        · intro he; injection he with he; rw [he]
      · rw [compareTo_add_add,
          listCase xs ys (fun x hx b =>
            IH x (by simp only [Expression.size]; have := size_lt_of_mem hx; omega) b)]
        simp
      · rw [compareTo_mul_mul,
          listCase xs ys (fun x hx b =>
            IH x (by simp only [Expression.size]; have := size_lt_of_mem hx; omega) b)]
        simp
      · rw [compareTo_pow_pow]
        have IHb := IH b1 (by simp only [Expression.size]; omega) b2
        have IHe := IH e1 (by simp only [Expression.size]; omega) e2
        split_ifs with hc
        · constructor
          · intro h0; exact absurd h0 hc
          · intro heq
            injection heq with heq1 heq2
            exact absurd (IHb.mpr heq1) hc
        · rw [not_not] at hc
          have hb : b1 = b2 := IHb.mp hc
          subst hb
          rw [IHe]
          simp
    · rw [compareTo_of_ne hT]
      constructor
      · intro h0
        rw [qofInt_eq_zero_iff] at h0
        exact absurd (by omega : TYPE_ORDER a.type = TYPE_ORDER b.type) hT
      · rintro rfl
        exact absurd rfl hT


theorem cmp_neg : ∀ a b : Expression, b.compareTo a = -(a.compareTo b) := by
  intro a
  induction a using Expression.strongInd with
  | ih a IH =>
    have listCase : ∀ xs ys : List Expression,
        (∀ x ∈ xs, ∀ b : Expression, b.compareTo x = -(x.compareTo b)) →
        cmpList ys xs = -(cmpList xs ys) := by
      intro xs
      induction xs with
      | nil =>
          intro ys _
          cases ys with
          | nil => decide
          | cons y ys =>
              rw [cmpList_nil, cmpList_cons_nil, ← qofInt_neg]
              congr 1 <;> omega
      | cons x xs ihx =>
          intro ys hmem
          cases ys with
          | nil =>
              rw [cmpList_nil, cmpList_cons_nil, ← qofInt_neg]
              congr 1 <;> omega
          | cons y ys =>
              rw [cmpList_cons_cons, cmpList_cons_cons]
              rw [hmem x (List.mem_cons_self x xs) y]
              by_cases hc : x.compareTo y = 0
              · rw [hc]
                rw [if_neg (by simp), if_neg (by simp)]
                exact ihx ys (fun u hu b => hmem u (List.mem_cons_of_mem x hu) b)
              · rw [if_pos (by simpa using hc), if_pos hc]
    intro b
    by_cases hT : TYPE_ORDER a.type = TYPE_ORDER b.type
    · rcases type_order_classes hT with ⟨v, w, rfl, rfl⟩ | ⟨n, m, rfl, rfl⟩ |
        ⟨xs, ys, rfl, rfl⟩ | ⟨xs, ys, rfl, rfl⟩ | ⟨b1, e1, b2, e2, rfl, rfl⟩
      · rw [compareTo_num_num v w hT, compareTo_num_num w v hT.symm, qsub_eq, qsub_eq]
        ring
      · rw [compareTo_sym_sym, compareTo_sym_sym]
        exact strCmp_neg n.data m.data
      · rw [compareTo_add_add, compareTo_add_add]
        exact listCase xs ys (fun x hx b =>
          IH x (by simp only [Expression.size]; have := size_lt_of_mem hx; omega) b)
      · rw [compareTo_mul_mul, compareTo_mul_mul]
        exact listCase xs ys (fun x hx b =>
          IH x (by simp only [Expression.size]; have := size_lt_of_mem hx; omega) b)
      · rw [compareTo_pow_pow, compareTo_pow_pow]
        rw [IH b1 (by simp only [Expression.size]; omega) b2]
        by_cases hc : b1.compareTo b2 = 0
        · rw [hc]
          rw [if_neg (by simp), if_neg (by simp)]
          exact IH e1 (by simp only [Expression.size]; omega) e2
        · rw [if_pos (by simpa using hc), if_pos hc]
    · rw [compareTo_of_ne hT, compareTo_of_ne (Ne.symm hT), ← qofInt_neg]
      congr 1
      omega

theorem cmp_trans : ∀ a b c : Expression,
    a.compareTo b ≤ 0 → b.compareTo c ≤ 0 → a.compareTo c ≤ 0 := by
  intro a
  induction a using Expression.strongInd with
  | ih a IH =>
    have listCase : ∀ xs ys zs : List Expression,
        (∀ x ∈ xs, ∀ b c : Expression,
          x.compareTo b ≤ 0 → b.compareTo c ≤ 0 → x.compareTo c ≤ 0) →
        cmpList xs ys ≤ 0 → cmpList ys zs ≤ 0 → cmpList xs zs ≤ 0 := by
      intro xs
      induction xs with
      | nil =>
          intro ys zs _ _ _
          rw [cmpList_nil, qofInt_nonpos_iff]
          omega
      | cons x xs ihx =>
          intro ys zs hmem h1 h2
          cases ys with
          | nil =>
              rw [cmpList_cons_nil, qofInt_nonpos_iff] at h1
              simp at h1
              omega
          | cons y ys =>
              cases zs with
              | nil =>
                  rw [cmpList_cons_nil, qofInt_nonpos_iff] at h2
                  simp at h2
                  omega
              | cons z zs =>
                  rw [cmpList_cons_cons] at h1 h2 ⊢
                  by_cases hxy : x.compareTo y = 0
                  · rw [if_neg (not_not_intro hxy)] at h1
                    have hx : x = y := (cmp_eq_zero_iff x y).mp hxy
                    subst hx
                    by_cases hyz : x.compareTo z = 0
                    · rw [if_neg (not_not_intro hyz)] at h2 ⊢
                      exact ihx ys zs (fun u hu b c => hmem u (List.mem_cons_of_mem x hu) b c)
                        h1 h2
                    · rw [if_pos hyz] at h2 ⊢
                      exact h2
                  · rw [if_pos hxy] at h1
                    by_cases hyz : y.compareTo z = 0
                    · have hy : y = z := (cmp_eq_zero_iff y z).mp hyz
                      subst hy
                      rw [if_pos hxy]
                      exact h1
                    · rw [if_pos hyz] at h2
                      have hxz := hmem x (List.mem_cons_self x xs) y z h1 h2
                      by_cases hxz0 : x.compareTo z = 0
                      · exfalso
                        have hx : x = z := (cmp_eq_zero_iff x z).mp hxz0
                        subst hx
                        rw [cmp_neg x y] at h2
                        have hlt : x.compareTo y < 0 := lt_of_le_of_ne h1 hxy
                        linarith
                      · rw [if_pos hxz0]
                        exact hxz
    intro b c h1 h2
    by_cases tab : TYPE_ORDER a.type = TYPE_ORDER b.type
    · by_cases tbc : TYPE_ORDER b.type = TYPE_ORDER c.type
      · have tac : TYPE_ORDER a.type = TYPE_ORDER c.type := tab.trans tbc
        rcases type_order_classes tab with ⟨v, w, rfl, rfl⟩ | ⟨n, m, rfl, rfl⟩ |
          ⟨xs, ys, rfl, rfl⟩ | ⟨xs, ys, rfl, rfl⟩ | ⟨b1, e1, b2, e2, rfl, rfl⟩
        · rcases type_order_classes tbc with ⟨w2, u, hw, rfl⟩ | ⟨n2, m2, hw, rfl⟩ |
            ⟨ys2, zs2, hw, rfl⟩ | ⟨ys2, zs2, hw, rfl⟩ | ⟨b2x, e2x, b3, e3, hw, rfl⟩ <;>
              first
                | (injection hw with hw2; subst hw2
                   rw [compareTo_num_num v w tab] at h1
                   rw [compareTo_num_num w u tbc] at h2
                   rw [compareTo_num_num v u tac, qsub_eq]
                   rw [qsub_eq] at h1 h2
                   linarith)
                | exact absurd hw (by simp)
        · rcases type_order_classes tbc with ⟨w2, u, hw, rfl⟩ | ⟨n2, m2, hw, rfl⟩ |
            ⟨ys2, zs2, hw, rfl⟩ | ⟨ys2, zs2, hw, rfl⟩ | ⟨b2x, e2x, b3, e3, hw, rfl⟩ <;>
              first
                | (injection hw with hw2; subst hw2
                   rw [compareTo_sym_sym] at h1 h2 ⊢
                   exact strCmp_trans n.data m.data m2.data h1 h2)
                | exact absurd hw (by simp)
        · rcases type_order_classes tbc with ⟨w2, u, hw, rfl⟩ | ⟨n2, m2, hw, rfl⟩ |
            ⟨ys2, zs2, hw, rfl⟩ | ⟨ys2, zs2, hw, rfl⟩ | ⟨b2x, e2x, b3, e3, hw, rfl⟩ <;>
              first
                | (injection hw with hw2; subst hw2
                   rw [compareTo_add_add] at h1 h2 ⊢
                   exact listCase xs ys zs2
                     (fun x hx b c => IH x
                       (by simp only [Expression.size]; have := size_lt_of_mem hx; omega) b c)
                     h1 h2)
                | exact absurd hw (by simp)
        · rcases type_order_classes tbc with ⟨w2, u, hw, rfl⟩ | ⟨n2, m2, hw, rfl⟩ |
            ⟨ys2, zs2, hw, rfl⟩ | ⟨ys2, zs2, hw, rfl⟩ | ⟨b2x, e2x, b3, e3, hw, rfl⟩ <;>
              first
                | (injection hw with hw2; subst hw2
                   rw [compareTo_mul_mul] at h1 h2 ⊢
                   exact listCase xs ys zs2
                     (fun x hx b c => IH x
                       (by simp only [Expression.size]; have := size_lt_of_mem hx; omega) b c)
                     h1 h2)
                | exact absurd hw (by simp)
        · rcases type_order_classes tbc with ⟨w2, u, hw, rfl⟩ | ⟨n2, m2, hw, rfl⟩ |
            ⟨ys2, zs2, hw, rfl⟩ | ⟨ys2, zs2, hw, rfl⟩ | ⟨b2x, e2x, b3, e3, hw, rfl⟩ <;>
              first
                | (injection hw with hwb hwe; subst hwb; subst hwe
                   rw [compareTo_pow_pow] at h1 h2 ⊢
                   by_cases h12 : b1.compareTo b2 = 0
                   · have hb : b1 = b2 := (cmp_eq_zero_iff b1 b2).mp h12
                     subst hb
                     rw [if_neg (not_not_intro h12)] at h1
                     by_cases h23 : b1.compareTo b3 = 0
                     · rw [if_neg (not_not_intro h23)] at h2 ⊢
                       exact IH e1 (by simp only [Expression.size]; omega) e2 e3 h1 h2
                     · rw [if_pos h23] at h2 ⊢
                       exact h2
                   · rw [if_pos h12] at h1
                     by_cases h23 : b2.compareTo b3 = 0
                     · have hb : b2 = b3 := (cmp_eq_zero_iff b2 b3).mp h23
                       subst hb
                       rw [if_pos h12]
                       exact h1
                     · rw [if_pos h23] at h2
                       have h13 := IH b1 (by simp only [Expression.size]; omega) b2 b3 h1 h2
                       by_cases h130 : b1.compareTo b3 = 0
                       · exfalso
                         have hb : b1 = b3 := (cmp_eq_zero_iff b1 b3).mp h130
                         subst hb
                         rw [cmp_neg b1 b2] at h2
                         have hlt : b1.compareTo b2 < 0 := lt_of_le_of_ne h1 h12
                         linarith
                       · rw [if_pos h130]
                         exact h13)
                | exact absurd hw (by simp)
      · have hlt : TYPE_ORDER b.type < TYPE_ORDER c.type := by
          rw [compareTo_of_ne tbc, qofInt_nonpos_iff] at h2
          omega
        have tac : TYPE_ORDER a.type ≠ TYPE_ORDER c.type := by omega
        rw [compareTo_of_ne tac, qofInt_nonpos_iff]
        omega
    · have hlt : TYPE_ORDER a.type < TYPE_ORDER b.type := by
        rw [compareTo_of_ne tab, qofInt_nonpos_iff] at h1
        omega
      by_cases tbc : TYPE_ORDER b.type = TYPE_ORDER c.type
      · have tac : TYPE_ORDER a.type ≠ TYPE_ORDER c.type := by omega
        rw [compareTo_of_ne tac, qofInt_nonpos_iff]
        omega
      · have hlt2 : TYPE_ORDER b.type < TYPE_ORDER c.type := by
          rw [compareTo_of_ne tbc, qofInt_nonpos_iff] at h2
          omega
        have tac : TYPE_ORDER a.type ≠ TYPE_ORDER c.type := by omega
        rw [compareTo_of_ne tac, qofInt_nonpos_iff]
        omega


/-- The canonical "less or equal" relation induced by `compareTo`. -/
def cmpLE (a b : Expression) : Prop := a.compareTo b ≤ 0

instance : IsTrans Expression cmpLE := ⟨fun a b c => cmp_trans a b c⟩

instance : IsAntisymm Expression cmpLE := ⟨fun a b h1 h2 => by
  have hn := cmp_neg a b
  have h0 : a.compareTo b = 0 := by
    have : b.compareTo a ≤ 0 := h2
    rw [hn] at this
    have : 0 ≤ a.compareTo b := by linarith
    exact le_antisymm h1 this
  exact (cmp_eq_zero_iff a b).mp h0⟩

instance : IsTotal Expression cmpLE := ⟨fun a b => by
  rcases le_total (a.compareTo b) 0 with h | h
  · exact Or.inl h
  · right
    show b.compareTo a ≤ 0
    rw [cmp_neg a b]
    linarith⟩

theorem insertCanon_perm (a : Expression) (l : List Expression) :
    List.Perm (insertCanon a l) (a :: l) := by
  induction l with
  | nil => rfl
  | cons b l ih =>
      rw [insertCanon]
      split_ifs
      · rfl
      · exact (List.Perm.cons b ih).trans (List.Perm.swap a b l)

theorem sortCanon_perm (l : List Expression) : List.Perm (sortCanon l) l := by
  induction l with
  | nil => rfl
  | cons a l ih => exact (insertCanon_perm a (sortCanon l)).trans (ih.cons a)

theorem insertCanon_sorted (a : Expression) (l : List Expression)
    (h : List.Sorted cmpLE l) : List.Sorted cmpLE (insertCanon a l) := by
  induction l with
  | nil => simp [insertCanon]
  | cons b l ih =>
      rw [insertCanon]
      split_ifs with hab
      · rw [List.sorted_cons]
        refine ⟨?_, h⟩
        intro y hy
        rcases List.mem_cons.mp hy with rfl | hy2
        · exact hab
        · exact cmp_trans a b y hab ((List.sorted_cons.mp h).1 y hy2)
      · rw [List.sorted_cons] at h ⊢
        obtain ⟨hb, hl⟩ := h
        refine ⟨?_, ih hl⟩
        intro y hy
        have hmem : y ∈ a :: l := (insertCanon_perm a l).subset hy
        rcases List.mem_cons.mp hmem with rfl | hy2
        · show b.compareTo y ≤ 0
          rw [cmp_neg y b]
          push_neg at hab
          linarith
        · exact hb y hy2

theorem sortCanon_sorted (l : List Expression) : List.Sorted cmpLE (sortCanon l) := by
  induction l with
  | nil => simp [sortCanon]
  | cons a l ih => exact insertCanon_sorted a (sortCanon l) ih

theorem sortCanon_eq_of_perm {l1 l2 : List Expression} (h : List.Perm l1 l2) :
    sortCanon l1 = sortCanon l2 :=
  List.eq_of_perm_of_sorted ((sortCanon_perm l1).trans (h.trans (sortCanon_perm l2).symm))
    (sortCanon_sorted l1) (sortCanon_sorted l2)

/-- C4: the result shape of `Add.create` — `ZERO` on no operands, the sole
operand unchanged on one, and otherwise a dispatch on the flatten result: no
surviving term gives `Number(constant)`, a sole surviving term with zero
constant is returned unwrapped, and otherwise an `Add` node over the
constant (when nonzero) followed by the surviving terms, which are always
sorted by the canonical order. -/
theorem claim_c4_add_create_shape :
    Add.create [] = ZERO ∧
    (∀ a : Expression, Add.create [a] = a) ∧
    (∀ args : List Expression, 2 ≤ args.length →
      ((Add.flatten args).terms = [] → Add.create args = .num (Add.flatten args).coeff) ∧
      (∀ t, (Add.flatten args).terms = [t] → (Add.flatten args).coeff = 0 →
        Add.create args = t) ∧
      (∀ t, (Add.flatten args).terms = [t] → (Add.flatten args).coeff ≠ 0 →
        Add.create args = .add (Expression.num (Add.flatten args).coeff :: [t])) ∧
      (2 ≤ (Add.flatten args).terms.length →
        Add.create args = .add ((if (Add.flatten args).coeff = 0 then ([] : List Expression)
          else [Expression.num (Add.flatten args).coeff]) ++ (Add.flatten args).terms))) ∧
    (∀ args : List Expression, List.Sorted cmpLE (Add.flatten args).terms) := by
  refine ⟨rfl, fun a => rfl, ?_, fun args => sortCanon_sorted _⟩
  intro args hlen
  obtain ⟨x, y, rest, rfl⟩ : ∃ x y rest, args = x :: y :: rest := by
    cases args with
    | nil => simp at hlen
    | cons x args2 =>
        cases args2 with
        | nil => simp at hlen
        | cons y rest => exact ⟨x, y, rest, rfl⟩
  refine ⟨?_, ?_, ?_, ?_⟩
  · intro h0
    show Add.create (x :: y :: rest) = _
    simp only [Add.create]
    rw [h0]
  · intro t ht hc
    show Add.create (x :: y :: rest) = t
    simp only [Add.create]
    rw [ht]
    simp [hc]
  · intro t ht hc
    show Add.create (x :: y :: rest) = _
    simp only [Add.create]
    rw [ht]
    simp [hc]
  · intro h2
    obtain ⟨t1, t2, ts, hterm⟩ :
        ∃ t1 t2 ts, (Add.flatten (x :: y :: rest)).terms = t1 :: t2 :: ts := by
      cases hq : (Add.flatten (x :: y :: rest)).terms with
      | nil => rw [hq] at h2; simp at h2
      | cons t1 rest2 =>
          cases rest2 with
          | nil => rw [hq] at h2; simp at h2
          | cons t2 ts => exact ⟨t1, t2, ts, rfl⟩
    show Add.create (x :: y :: rest) = _
    simp only [Add.create]
    rw [hterm]

/-- Witness for C4: `Add.create [x, y]` takes the multi-term branch with a
zero constant, producing the literal sorted `Add` node. -/
theorem claim_c4_witness :
    Add.create [.sym "x", .sym "y"] =
      .add ((if (Add.flatten [Expression.sym "x", Expression.sym "y"]).coeff = 0
        then ([] : List Expression)
        else [Expression.num (Add.flatten [Expression.sym "x", Expression.sym "y"]).coeff]) ++
          (Add.flatten [Expression.sym "x", Expression.sym "y"]).terms) :=
  ((claim_c4_add_create_shape.2.2.1 [.sym "x", .sym "y"] (by decide)).2.2.2 (by decide))


theorem type_symbol_iff (e : Expression) : e.type = .Symbol ↔ ∃ n, e = .sym n := by
  cases e with
  | num v =>
      simp only [Expression.type]
      split_ifs <;> simp
  | sym n => simp [Expression.type]
  | add xs => simp [Expression.type]
  | mul xs => simp [Expression.type]
  | pow b ex => simp [Expression.type]

theorem type_pow_iff (e : Expression) : e.type = .Pow ↔ ∃ b ex, e = .pow b ex := by
  cases e with
  | num v =>
      simp only [Expression.type]
      split_ifs <;> simp
  | sym n => simp [Expression.type]
  | add xs => simp [Expression.type]
  | mul xs => simp [Expression.type]
  | pow b ex => simp [Expression.type]

theorem type_add_iff (e : Expression) : e.type = .Add ↔ ∃ xs, e = .add xs := by
  cases e with
  | num v =>
      simp only [Expression.type]
      split_ifs <;> simp
  | sym n => simp [Expression.type]
  | add xs => simp [Expression.type]
  | mul xs => simp [Expression.type]
  | pow b ex => simp [Expression.type]

theorem mapGetD_self (k : Nat) (v : ℚ) (rest : List (Nat × ℚ)) :
    mapGetD ((k, v) :: rest) k = v := by
  simp [mapGetD]

theorem mapSet_self (k : Nat) (v w : ℚ) (rest : List (Nat × ℚ)) :
    mapSet ((k, v) :: rest) k w = (k, w) :: rest := by
  simp [mapSet]

theorem qadd_zero_one : qadd 0 1 = 1 := by rw [qadd_eq]; norm_num

theorem qadd_one_one : qadd 1 1 = 2 := by rw [qadd_eq]; norm_num

/-- `Add.create(x, x)` for an operand that `collectTerms` treats as an
opaque term (hash-keyed with coefficient accumulation) and that the rescan
rediscovers as itself: the sum collapses to `Mul.create(Number(2), x)`. -/
theorem add_create_pair (x : Expression)
    (hcol : ∀ c st, collectTerms x c st =
      { st with terms := mapSet st.terms x.hash (qadd (mapGetD st.terms x.hash) c) })
    (hrep : findRep [x, x] x.hash = some x) :
    Add.create [x, x] = Mul.create [.num 2, x] := by
  have hfold : addSeqFold [x, x] ⟨[], 0⟩ = ⟨[(x.hash, 2)], 0⟩ := by
    show addSeqFold [x] (collectTerms x 1 ⟨[], 0⟩) = _
    rw [hcol]
    show addSeqFold [] (collectTerms x 1 _) = _
    rw [hcol]
    show AddSt.mk (mapSet (mapSet [] x.hash (qadd (mapGetD [] x.hash) 1)) x.hash _) 0 = _
    rw [show mapGetD [] x.hash = 0 from rfl]
    rw [show mapSet [] x.hash (qadd 0 1) = [(x.hash, qadd 0 1)] from rfl]
    rw [qadd_zero_one, mapGetD_self, mapSet_self, qadd_one_one]
  have hbuild : buildTerms [(x.hash, 2)] [x, x] = [Mul.create [.num 2, x]] := by
    simp only [buildTerms, List.filterMap_cons, List.filterMap_nil, hrep]
    norm_num
  have hflat : Add.flatten [x, x] = ⟨[Mul.create [.num 2, x]], 0⟩ := by
    simp only [Add.flatten, hfold]
    rw [hbuild]
    rfl
  show Add.create [x, x] = Mul.create [.num 2, x]
  simp only [Add.create, hflat]
  norm_num

theorem rmapGet_self (k : Nat) (v : Expression) (rest : List (Nat × Expression)) :
    rmapGet ((k, v) :: rest) k = some v := by
  simp [rmapGet]

theorem rmapSet_self (k : Nat) (v w : Expression) (rest : List (Nat × Expression)) :
    rmapSet ((k, v) :: rest) k w = (k, w) :: rest := by
  simp [rmapSet]

/-- `Mul.create(x, x)` for an operand that `collectFactors` treats as an
opaque base (exponent-keyed): the product collapses to
`Pow.create(x, Number(2))`. -/
theorem mul_create_pair (x : Expression)
    (hcol : ∀ c st, collectFactors x c st =
      { st with
        baseHashToExpr := rmapSet st.baseHashToExpr x.hash x
        powers := mapSet st.powers x.hash (qadd (mapGetD st.powers x.hash) c) }) :
    Mul.create [x, x] = Pow.create x (.num 2) := by
  have hfold : mulSeqFold [x, x] ⟨[], [], [], 1⟩ =
      ⟨[(x.hash, 2)], [], [(x.hash, x)], 1⟩ := by
    show (if (1 : ℚ) = 0 then _ else mulSeqFold [x] (collectFactors x 1 ⟨[], [], [], 1⟩)) = _
    rw [if_neg (by norm_num)]
    rw [hcol]
    show (if (1 : ℚ) = 0 then _ else mulSeqFold [] (collectFactors x 1 _)) = _
    rw [if_neg (by norm_num), hcol]
    show MulSt.mk (mapSet (mapSet [] x.hash (qadd (mapGetD [] x.hash) 1)) x.hash _) []
      (rmapSet (rmapSet [] x.hash x) x.hash x) 1 = _
    rw [show mapGetD [] x.hash = 0 from rfl]
    rw [show mapSet [] x.hash (qadd 0 1) = [(x.hash, qadd 0 1)] from rfl]
    rw [qadd_zero_one, mapGetD_self, mapSet_self, qadd_one_one]
    rw [show rmapSet [] x.hash x = [(x.hash, x)] from rfl, rmapSet_self]
  have hpairs : buildPowerPairs [(x.hash, 2)] [(x.hash, x)] = [(x, 2)] := by
    simp only [buildPowerPairs, List.filterMap_cons, List.filterMap_nil, rmapGet_self]
    norm_num
  have hflat : Mul.flatten [x, x] = ⟨[], [(x, 2)], 1⟩ := by
    simp only [Mul.flatten, hfold]
    rw [hpairs]
    rfl
  show Mul.create [x, x] = Pow.create x (.num 2)
  simp only [Mul.create, hflat]
  norm_num

/-- The original C7 fails: with `x = Add.create(y, z)` the sum part keeps
the distributed form `2y + 2z`, which is not structurally equal to
`2·(y + z)`; with `x = Mul.create(y, z)` the product part keeps the
per-base powers `y² · z²`, not `(y·z)²`. -/
theorem claim_c7_counterexample :
    isNumericType (Add.create [.sym "y", .sym "z"]).type = false ∧
    (Add.create [Add.create [.sym "y", .sym "z"], Add.create [.sym "y", .sym "z"]]).equals
      (Mul.create [.num 2, Add.create [.sym "y", .sym "z"]]) = false ∧
    isNumericType (Mul.create [.sym "y", .sym "z"]).type = false ∧
    (Mul.create [Mul.create [.sym "y", .sym "z"], Mul.create [.sym "y", .sym "z"]]).equals
      (Pow.create (Mul.create [.sym "y", .sym "z"]) (.num 2)) = false := by
  refine ⟨by decide, by decide, by decide, by decide⟩

/-- C7 amended: like-term collection `Add.create(x,x) = Mul.create(2,x)`
holds for every `x` of kind `Symbol` or `Pow` (the kinds `collectTerms`
keys opaquely), and like-base collection `Mul.create(x,x) =
Pow.create(x, 2)` holds for every `x` of kind `Symbol` or `Add` (the kinds
`collectFactors` keys opaquely); the `Add` (resp. `Mul`/`Pow`) kinds are
excluded by the counterexample. -/
theorem claim_c7_amended (x : Expression) :
    ((x.type = .Symbol ∨ x.type = .Pow) →
      (Add.create [x, x]).equals (Mul.create [.num 2, x]) = true) ∧
    ((x.type = .Symbol ∨ x.type = .Add) →
      (Mul.create [x, x]).equals (Pow.create x (.num 2)) = true) := by
  constructor
  · intro hx
    have hcol : ∀ c st, collectTerms x c st =
        { st with terms := mapSet st.terms x.hash (qadd (mapGetD st.terms x.hash) c) } := by
      rcases hx with hx | hx
      · obtain ⟨n, rfl⟩ := (type_symbol_iff x).mp hx
        intro c st
        rfl
      · obtain ⟨b, ex, rfl⟩ := (type_pow_iff x).mp hx
        intro c st
        rfl
    have hrep : findRep [x, x] x.hash = some x := by
      rcases hx with hx | hx
      · obtain ⟨n, rfl⟩ := (type_symbol_iff x).mp hx
        simp [findRep]
      · obtain ⟨b, ex, rfl⟩ := (type_pow_iff x).mp hx
        simp [findRep]
    rw [add_create_pair x hcol hrep]
    exact equals_refl _
  · intro hx
    have hcol : ∀ c st, collectFactors x c st =
        { st with
          baseHashToExpr := rmapSet st.baseHashToExpr x.hash x
          powers := mapSet st.powers x.hash (qadd (mapGetD st.powers x.hash) c) } := by
      rcases hx with hx | hx
      · obtain ⟨n, rfl⟩ := (type_symbol_iff x).mp hx
        intro c st
        rfl
      · obtain ⟨xs, rfl⟩ := (type_add_iff x).mp hx
        intro c st
        rfl
    rw [mul_create_pair x hcol]
    exact equals_refl _

/-- Witness for the amended C7 at `x = Symbol("w")`. -/
theorem claim_c7_witness :
    (Add.create [.sym "w", .sym "w"]).equals (Mul.create [.num 2, .sym "w"]) = true ∧
    (Mul.create [.sym "w", .sym "w"]).equals (Pow.create (.sym "w") (.num 2)) = true :=
  ⟨(claim_c7_amended (.sym "w")).1 (Or.inl (by decide)),
    (claim_c7_amended (.sym "w")).2 (Or.inl (by decide))⟩


/-! ### Commutativity infrastructure: map and filter lemmas -/

theorem mapGetD_mapSet (m : List (Nat × ℚ)) (k : Nat) (v : ℚ) (k' : Nat) :
    mapGetD (mapSet m k v) k' = if k' = k then v else mapGetD m k' := by
  induction m with
  | nil =>
      rcases eq_or_ne k' k with h | h
      · subst h
        simp [mapSet, mapGetD]
      · simp [mapSet, mapGetD, h, Ne.symm h]
  | cons p rest ih =>
      obtain ⟨k0, v0⟩ := p
      rcases eq_or_ne k0 k with hk0 | hk0
      · subst hk0
        rcases eq_or_ne k' k0 with h | h
        · subst h
          simp [mapSet, mapGetD]
        · simp [mapSet, mapGetD, h, Ne.symm h]
      · rcases eq_or_ne k0 k' with h | h
        · subst h
          simp [mapSet, mapGetD, hk0]
        · simp [mapSet, mapGetD, hk0, h, ih]

/-- Keys are pairwise distinct (the JS `Map` invariant). -/
def NodupK (m : List (Nat × ℚ)) : Prop := (m.map Prod.fst).Nodup

theorem nodupK_nil : NodupK [] := List.nodup_nil

theorem keys_mapSet (m : List (Nat × ℚ)) (k : Nat) (v : ℚ) (k' : Nat) :
    k' ∈ (mapSet m k v).map Prod.fst ↔ k' ∈ m.map Prod.fst ∨ k' = k := by
  induction m with
  | nil => simp [mapSet]
  | cons p rest ih =>
      obtain ⟨k0, v0⟩ := p
      simp only [mapSet]
      split_ifs with h1
      · subst h1
        simp only [List.map_cons, List.mem_cons]
        constructor
        · rintro (rfl | h) <;> simp [*]
        · rintro (h | h)
          · rcases h with rfl | h <;> simp [*]
          · subst h; simp
      · simp only [List.map_cons, List.mem_cons, ih]
        tauto

theorem nodupK_mapSet {m : List (Nat × ℚ)} (h : NodupK m) (k : Nat) (v : ℚ) :
    NodupK (mapSet m k v) := by
  induction m with
  | nil => simp [mapSet, NodupK]
  | cons p rest ih =>
      obtain ⟨k0, v0⟩ := p
      rw [NodupK, List.map_cons, List.nodup_cons] at h
      obtain ⟨hk0, hrest⟩ := h
      simp only [mapSet]
      split_ifs with h1
      · subst h1
        rw [NodupK, List.map_cons, List.nodup_cons]
        exact ⟨hk0, hrest⟩
      · rw [NodupK, List.map_cons, List.nodup_cons]
        refine ⟨?_, ih hrest⟩
        intro hc
        rw [keys_mapSet] at hc
        rcases hc with hc | hc
        · exact hk0 hc
        · exact h1 hc

theorem mapGetD_of_mem {m : List (Nat × ℚ)} (h : NodupK m) {k : Nat} {v : ℚ}
    (hm : (k, v) ∈ m) : mapGetD m k = v := by
  induction m with
  | nil => cases hm
  | cons p rest ih =>
      obtain ⟨k0, v0⟩ := p
      rw [NodupK, List.map_cons, List.nodup_cons] at h
      obtain ⟨hk0, hrest⟩ := h
      rcases List.mem_cons.mp hm with heq | hmem
      · injection heq with h1 h2
        subst h1
        subst h2
        simp [mapGetD]
      · simp only [mapGetD]
        split_ifs with h1
        · exact absurd (List.mem_map.mpr ⟨(k, v), hmem, h1.symm⟩) hk0
        · exact ih hrest hmem

theorem mem_of_mapGetD {m : List (Nat × ℚ)} {k : Nat} {v : ℚ}
    (hg : mapGetD m k = v) (hv : v ≠ 0) : (k, v) ∈ m := by
  induction m with
  | nil => exact absurd hg.symm hv
  | cons p rest ih =>
      obtain ⟨k0, v0⟩ := p
      simp only [mapGetD] at hg
      split_ifs at hg with h1
      · subst h1
        subst hg
        exact List.mem_cons_self _ _
      · exact List.mem_cons_of_mem _ (ih hg)

/-- Two nodup-keyed maps with the same lookup function have permutation-equal
nonzero entry lists. -/
theorem filter_perm_of_getD_eq {m1 m2 : List (Nat × ℚ)}
    (h1 : NodupK m1) (h2 : NodupK m2)
    (hg : ∀ k, mapGetD m1 k = mapGetD m2 k) :
    List.Perm (m1.filter (fun p => decide (p.2 ≠ 0))) (m2.filter (fun p => decide (p.2 ≠ 0))) := by
  have hmem : ∀ p : Nat × ℚ,
      p ∈ m1.filter (fun p => decide (p.2 ≠ 0)) ↔ p ∈ m2.filter (fun p => decide (p.2 ≠ 0)) := by
    rintro ⟨k, v⟩
    simp only [List.mem_filter, decide_eq_true_eq]
    constructor
    · rintro ⟨hm, hv⟩
      exact ⟨mem_of_mapGetD (by rw [← hg k]; exact mapGetD_of_mem h1 hm) hv, hv⟩
    · rintro ⟨hm, hv⟩
      exact ⟨mem_of_mapGetD (by rw [hg k]; exact mapGetD_of_mem h2 hm) hv, hv⟩
  have hn1 : (m1.filter (fun p => decide (p.2 ≠ 0))).Nodup := by
    have : (m1.map Prod.fst).Nodup := h1
    have hm1 : m1.Nodup := List.Nodup.of_map _ this
    exact hm1.filter _
  have hn2 : (m2.filter (fun p => decide (p.2 ≠ 0))).Nodup := by
    have : (m2.map Prod.fst).Nodup := h2
    have hm2 : m2.Nodup := List.Nodup.of_map _ this
    exact hm2.filter _
  exact (hn1.subperm (fun p hp => (hmem p).mp hp)).antisymm
    (hn2.subperm (fun p hp => (hmem p).mpr hp))


/-! ### C3 Add part: per-operand contributions of `collectTerms` -/

mutual
/-- Ghost function: the contribution of one collected operand to the running
constant of `collectTerms` (additive in the state). -/
def coeffDelta : Expression → ℚ → ℚ
  | .num v, c => v * c
  | .add args, c => coeffDeltaList args c
  | .mul _, _ => 0
  | .sym _, _ => 0
  | .pow _ _, _ => 0

def coeffDeltaList : List Expression → ℚ → ℚ
  | [], _ => 0
  | e :: rest, c => coeffDelta e c + coeffDeltaList rest c
end

mutual
/-- Ghost function: the contribution of one collected operand to the `terms`
entry at a given hash key (additive in the state). -/
def termDelta : Expression → ℚ → Nat → ℚ
  | .num _, _, _ => 0
  | .add args, c, h => termDeltaList args c h
  | .mul args, c, h =>
      if (extractCoeffTerm (.mul args)).2.hash = h then (extractCoeffTerm (.mul args)).1 * c else 0
  | .sym n, c, h => if (Expression.sym n).hash = h then c else 0
  | .pow b ex, c, h => if (Expression.pow b ex).hash = h then c else 0

def termDeltaList : List Expression → ℚ → Nat → ℚ
  | [], _, _ => 0
  | e :: rest, c, h => termDelta e c h + termDeltaList rest c h
end

theorem collect_coeff_list (args : List Expression) (c : ℚ)
    (H : ∀ a ∈ args, ∀ c st, (collectTerms a c st).coeff = st.coeff + coeffDelta a c) :
    ∀ st, (collectTermsList args c st).coeff = st.coeff + coeffDeltaList args c := by
  induction args with
  | nil => intro st; simp [collectTermsList, coeffDeltaList]
  | cons a rest ihl =>
      intro st
      simp only [collectTermsList, coeffDeltaList]
      rw [ihl (fun b hb c st => H b (List.mem_cons_of_mem a hb) c st),
        H a (List.mem_cons_self a rest)]
      ring

theorem collect_coeff (e : Expression) :
    ∀ c st, (collectTerms e c st).coeff = st.coeff + coeffDelta e c := by
  induction e using Expression.strongInd with
  | ih e IH =>
    cases e with
    | num v =>
        intro c st
        simp only [collectTerms, coeffDelta]
        split_ifs with hv
        · subst hv; simp
        · simp [qadd_eq, qmul_eq]
    | sym n => intro c st; simp [collectTerms, coeffDelta]
    | pow b ex => intro c st; simp [collectTerms, coeffDelta]
    | mul args => intro c st; simp [collectTerms, coeffDelta]
    | add args =>
        intro c st
        simp only [collectTerms, coeffDelta]
        exact collect_coeff_list args c
          (fun a ha c st => IH a
            (by have := size_lt_of_mem ha; simp only [Expression.size]; omega) c st) st

theorem collect_getD_list (args : List Expression) (c : ℚ)
    (H : ∀ a ∈ args, ∀ c st h,
      mapGetD (collectTerms a c st).terms h = mapGetD st.terms h + termDelta a c h) :
    ∀ st h, mapGetD (collectTermsList args c st).terms h =
      mapGetD st.terms h + termDeltaList args c h := by
  induction args with
  | nil => intro st h; simp [collectTermsList, termDeltaList]
  | cons a rest ihl =>
      intro st h
      simp only [collectTermsList, termDeltaList]
      rw [ihl (fun b hb c st h => H b (List.mem_cons_of_mem a hb) c st h) _ h,
        H a (List.mem_cons_self a rest) _ _ h]
      ring

theorem collect_getD (e : Expression) :
    ∀ c st h, mapGetD (collectTerms e c st).terms h = mapGetD st.terms h + termDelta e c h := by
  induction e using Expression.strongInd with
  | ih e IH =>
    cases e with
    | num v =>
        intro c st h
        simp only [collectTerms, termDelta]
        split_ifs with hv <;> simp
    | sym n =>
        intro c st h
        simp only [collectTerms, termDelta]
        rw [mapGetD_mapSet]
        rcases eq_or_ne h (Expression.sym n).hash with h1 | h1
        · rw [if_pos h1, if_pos h1.symm, qadd_eq, h1]
        · rw [if_neg h1, if_neg (fun hh => h1 hh.symm), add_zero]
    | pow b ex =>
        intro c st h
        simp only [collectTerms, termDelta]
        rw [mapGetD_mapSet]
        rcases eq_or_ne h (Expression.pow b ex).hash with h1 | h1
        · rw [if_pos h1, if_pos h1.symm, qadd_eq, h1]
        · rw [if_neg h1, if_neg (fun hh => h1 hh.symm), add_zero]
    | mul args =>
        intro c st h
        simp only [collectTerms, termDelta]
        rw [mapGetD_mapSet]
        rcases eq_or_ne h (extractCoeffTerm (.mul args)).2.hash with h1 | h1
        · rw [if_pos h1, if_pos h1.symm, qadd_eq, qmul_eq, h1]
        · rw [if_neg h1, if_neg (fun hh => h1 hh.symm), add_zero]
    | add args =>
        intro c st h
        simp only [collectTerms, termDelta]
        exact collect_getD_list args c
          (fun a ha c st h => IH a
            (by have := size_lt_of_mem ha; simp only [Expression.size]; omega) c st h) st h

theorem collect_nodupK_list (args : List Expression) (c : ℚ)
    (H : ∀ a ∈ args, ∀ c st, NodupK st.terms → NodupK (collectTerms a c st).terms) :
    ∀ st, NodupK st.terms → NodupK (collectTermsList args c st).terms := by
  induction args with
  | nil => intro st hst; simpa [collectTermsList] using hst
  | cons a rest ihl =>
      intro st hst
      simp only [collectTermsList]
      exact ihl (fun b hb c st h => H b (List.mem_cons_of_mem a hb) c st h) _
        (H a (List.mem_cons_self a rest) c st hst)

theorem collect_nodupK (e : Expression) :
    ∀ c st, NodupK st.terms → NodupK (collectTerms e c st).terms := by
  induction e using Expression.strongInd with
  | ih e IH =>
    cases e with
    | num v =>
        intro c st hst
        simp only [collectTerms]
        split_ifs with hv <;> simpa using hst
    | sym n =>
        intro c st hst
        simp only [collectTerms]
        exact nodupK_mapSet hst _ _
    | pow b ex =>
        intro c st hst
        simp only [collectTerms]
        exact nodupK_mapSet hst _ _
    | mul args =>
        intro c st hst
        simp only [collectTerms]
        exact nodupK_mapSet hst _ _
    | add args =>
        intro c st hst
        simp only [collectTerms]
        exact collect_nodupK_list args c
          (fun a ha c st h => IH a
            (by have := size_lt_of_mem ha; simp only [Expression.size]; omega) c st h) st hst

/-! ### C3 Add part: the representative rescan is determined by its candidates -/

/-- The expressions the representative rescan can return when examining a
single operand. -/
def repCandsOf (e : Expression) : List Expression :=
  match e with
  | .add args => args
  | .mul args => [(extractCoeffTerm (.mul args)).2]
  | _ => [e]

/-- All candidate representatives of an operand sequence, in scan order. -/
def repCands (seq : List Expression) : List Expression :=
  match seq with
  | [] => []
  | e :: rest => repCandsOf e ++ repCands rest

theorem findRep_some {seq : List Expression} {h : Nat} {u : Expression}
    (hf : findRep seq h = some u) : u ∈ repCands seq ∧ u.hash = h := by
  induction seq with
  | nil => simp [findRep] at hf
  | cons e rest ih =>
      cases e with
      | add args =>
          simp only [findRep] at hf
          cases hfind : args.find? (fun a => decide (a.hash = h)) with
          | some t =>
              rw [hfind] at hf
              injection hf with hf
              subst hf
              refine ⟨?_, ?_⟩
              · simp only [repCands, repCandsOf, List.mem_append]
                exact Or.inl (List.mem_of_find?_eq_some hfind)
              · have := List.find?_some hfind
                simpa using this
          | none =>
              rw [hfind] at hf
              obtain ⟨hm, hh⟩ := ih hf
              refine ⟨?_, hh⟩
              simp only [repCands, repCandsOf, List.mem_append]
              exact Or.inr hm
      | mul args =>
          simp only [findRep] at hf
          split_ifs at hf with h1
          · injection hf with hf
            subst hf
            refine ⟨?_, h1⟩
            simp [repCands, repCandsOf]
          · obtain ⟨hm, hh⟩ := ih hf
            refine ⟨?_, hh⟩
            simp only [repCands, repCandsOf, List.mem_append, List.mem_singleton]
            exact Or.inr hm
      | num v =>
          simp only [findRep] at hf
          split_ifs at hf with h1
          · injection hf with hf
            subst hf
            refine ⟨?_, h1⟩
            simp [repCands, repCandsOf]
          · obtain ⟨hm, hh⟩ := ih hf
            refine ⟨?_, hh⟩
            simp only [repCands, repCandsOf, List.mem_append, List.mem_singleton]
            exact Or.inr hm
      | sym n =>
          simp only [findRep] at hf
          split_ifs at hf with h1
          · injection hf with hf
            subst hf
            refine ⟨?_, h1⟩
            simp [repCands, repCandsOf]
          · obtain ⟨hm, hh⟩ := ih hf
            refine ⟨?_, hh⟩
            simp only [repCands, repCandsOf, List.mem_append, List.mem_singleton]
            exact Or.inr hm
      | pow b ex =>
          simp only [findRep] at hf
          split_ifs at hf with h1
          · injection hf with hf
            subst hf
            refine ⟨?_, h1⟩
            simp [repCands, repCandsOf]
          · obtain ⟨hm, hh⟩ := ih hf
            refine ⟨?_, hh⟩
            simp only [repCands, repCandsOf, List.mem_append, List.mem_singleton]
            exact Or.inr hm

theorem findRep_none {seq : List Expression} {h : Nat}
    (hf : findRep seq h = none) : ∀ u ∈ repCands seq, u.hash ≠ h := by
  induction seq with
  | nil => intro u hu; cases hu
  | cons e rest ih =>
      intro u hu
      cases e with
      | add args =>
          simp only [findRep] at hf
          cases hfind : args.find? (fun a => decide (a.hash = h)) with
          | some t => rw [hfind] at hf; simp at hf
          | none =>
              rw [hfind] at hf
              simp only [repCands, repCandsOf, List.mem_append] at hu
              rcases hu with hu | hu
              · have := List.find?_eq_none.mp hfind u hu
                simpa using this
              · exact ih hf u hu
      | mul args =>
          simp only [findRep] at hf
          split_ifs at hf with h1
          simp only [repCands, repCandsOf, List.mem_append, List.mem_singleton] at hu
          rcases hu with hu | hu
          · subst hu; exact fun hh => h1 hh
          · exact ih hf u hu
      | num v =>
          simp only [findRep] at hf
          split_ifs at hf with h1
          simp only [repCands, repCandsOf, List.mem_append, List.mem_singleton] at hu
          rcases hu with hu | hu
          · subst hu; exact fun hh => h1 hh
          · exact ih hf u hu
      | sym n =>
          simp only [findRep] at hf
          split_ifs at hf with h1
          simp only [repCands, repCandsOf, List.mem_append, List.mem_singleton] at hu
          rcases hu with hu | hu
          · subst hu; exact fun hh => h1 hh
          · exact ih hf u hu
      | pow b ex =>
          simp only [findRep] at hf
          split_ifs at hf with h1
          simp only [repCands, repCandsOf, List.mem_append, List.mem_singleton] at hu
          rcases hu with hu | hu
          · subst hu; exact fun hh => h1 hh
          · exact ih hf u hu

theorem repCands_pair_mem (a b : Expression) (u : Expression) :
    u ∈ repCands [a, b] ↔ u ∈ repCands [b, a] := by
  simp only [repCands, List.append_nil, List.mem_append]
  tauto

theorem findRep_pair_comm (a b : Expression)
    (hinj : ∀ u ∈ repCands [a, b], ∀ v ∈ repCands [a, b], u.hash = v.hash → u = v)
    (h : Nat) : findRep [a, b] h = findRep [b, a] h := by
  cases h1 : findRep [a, b] h with
  | none =>
      cases h2 : findRep [b, a] h with
      | none => rfl
      | some u =>
          obtain ⟨hm, hh⟩ := findRep_some h2
          exact absurd hh (findRep_none h1 u ((repCands_pair_mem a b u).mpr hm))
  | some u =>
      cases h2 : findRep [b, a] h with
      | none =>
          obtain ⟨hm, hh⟩ := findRep_some h1
          exact absurd hh (findRep_none h2 u ((repCands_pair_mem a b u).mp hm))
      | some v =>
          obtain ⟨hm1, hh1⟩ := findRep_some h1
          obtain ⟨hm2, hh2⟩ := findRep_some h2
          rw [hinj u hm1 v ((repCands_pair_mem a b v).mpr hm2) (by rw [hh1, hh2])]

/-- The per-entry step of `buildTerms` on an entry already known to have a
nonzero coefficient. -/
def buildTermOf (seq : List Expression) (p : Nat × ℚ) : Option Expression :=
  match findRep seq p.1 with
  | none => none
  | some t => some (if p.2 = 1 then t else Mul.create [.num p.2, t])

theorem buildTerms_eq_filter (entries : List (Nat × ℚ)) (seq : List Expression) :
    buildTerms entries seq =
      (entries.filter (fun p => decide (p.2 ≠ 0))).filterMap (buildTermOf seq) := by
  induction entries with
  | nil => rfl
  | cons p rest ih =>
      obtain ⟨h, v⟩ := p
      simp only [buildTerms] at ih ⊢
      simp only [List.filterMap_cons, List.filter_cons]
      by_cases hv : v = 0
      · subst hv
        simpa using ih
      · cases hr : findRep seq h with
        | none => simp [hv, hr, buildTermOf, ih]
        | some t => simp [hv, hr, buildTermOf, ih]

/-- `Add.flatten` on a two-operand sequence is commutative provided the
candidate representatives have no hash collisions. -/
theorem add_flatten_pair_comm (a b : Expression)
    (hinj : ∀ u ∈ repCands [a, b], ∀ v ∈ repCands [a, b], u.hash = v.hash → u = v) :
    Add.flatten [a, b] = Add.flatten [b, a] := by
  have hco : (addSeqFold [a, b] ⟨[], 0⟩).coeff = (addSeqFold [b, a] ⟨[], 0⟩).coeff := by
    show (collectTerms b 1 (collectTerms a 1 ⟨[], 0⟩)).coeff =
      (collectTerms a 1 (collectTerms b 1 ⟨[], 0⟩)).coeff
    rw [collect_coeff, collect_coeff, collect_coeff, collect_coeff]
    ring
  have hgetD : ∀ h, mapGetD (addSeqFold [a, b] ⟨[], 0⟩).terms h =
      mapGetD (addSeqFold [b, a] ⟨[], 0⟩).terms h := by
    intro h
    show mapGetD (collectTerms b 1 (collectTerms a 1 ⟨[], 0⟩)).terms h =
      mapGetD (collectTerms a 1 (collectTerms b 1 ⟨[], 0⟩)).terms h
    rw [collect_getD, collect_getD, collect_getD, collect_getD]
    ring
  have hnd1 : NodupK (addSeqFold [a, b] ⟨[], 0⟩).terms := by
    show NodupK (collectTerms b 1 (collectTerms a 1 ⟨[], 0⟩)).terms
    exact collect_nodupK b 1 _ (collect_nodupK a 1 _ nodupK_nil)
  have hnd2 : NodupK (addSeqFold [b, a] ⟨[], 0⟩).terms := by
    show NodupK (collectTerms a 1 (collectTerms b 1 ⟨[], 0⟩)).terms
    exact collect_nodupK a 1 _ (collect_nodupK b 1 _ nodupK_nil)
  have hperm := filter_perm_of_getD_eq hnd1 hnd2 hgetD
  have hbt : List.Perm (buildTerms (addSeqFold [a, b] ⟨[], 0⟩).terms [a, b])
      (buildTerms (addSeqFold [b, a] ⟨[], 0⟩).terms [b, a]) := by
    rw [buildTerms_eq_filter, buildTerms_eq_filter]
    have hfn : buildTermOf [a, b] = buildTermOf [b, a] := by
      funext p
      simp only [buildTermOf]
      rw [findRep_pair_comm a b hinj]
    rw [hfn]
    exact hperm.filterMap _
  simp only [Add.flatten]
  rw [FlattenResult.mk.injEq]
  exact ⟨sortCanon_eq_of_perm hbt, hco⟩

/-- `Add.create` on two operands is commutative provided the candidate
representatives of the rescan have no hash collisions. -/
theorem add_create_pair_comm (a b : Expression)
    (hinj : ∀ u ∈ repCands [a, b], ∀ v ∈ repCands [a, b], u.hash = v.hash → u = v) :
    Add.create [a, b] = Add.create [b, a] := by
  have hfl := add_flatten_pair_comm a b hinj
  simp only [Add.create]
  rw [hfl]


/-! ### C3 Mul part: per-operand contributions of `collectFactors` -/

mutual
/-- Ghost function: the multiplicative contribution of one collected operand
to the running coefficient of `collectFactors`. -/
def mulCoeffDelta : Expression → ℚ → ℚ
  | .num v, x => if v = 0 then 0 else if v = 1 then 1 else qpow v x
  | .mul args, x => mulCoeffDeltaList args x
  | .pow b ex, x =>
      match ex with
      | .num ev => mulCoeffDelta b (qmul ev x)
      | _ => 1
  | .sym _, _ => 1
  | .add _, _ => 1

def mulCoeffDeltaList : List Expression → ℚ → ℚ
  | [], _ => 1
  | e :: rest, x => mulCoeffDelta e x * mulCoeffDeltaList rest x
end

mutual
/-- Ghost function: the additive contribution of one collected operand to the
`powers` entry at a given hash key. -/
def powDelta : Expression → ℚ → Nat → ℚ
  | .num _, _, _ => 0
  | .mul args, x, h => powDeltaList args x h
  | .pow b ex, x, h =>
      match ex with
      | .num ev => powDelta b (qmul ev x) h
      | _ => 0
  | .sym n, x, h => if (Expression.sym n).hash = h then x else 0
  | .add args, x, h => if (Expression.add args).hash = h then x else 0

def powDeltaList : List Expression → ℚ → Nat → ℚ
  | [], _, _ => 0
  | e :: rest, x, h => powDelta e x h + powDeltaList rest x h
end

mutual
/-- Ghost function: the factors appended verbatim by one collected operand
(independent of the running exponent). -/
def factorsDelta : Expression → List Expression
  | .num _ => []
  | .mul args => factorsDeltaList args
  | .pow b ex =>
      match ex with
      | .num _ => factorsDelta b
      | _ => [Expression.pow b ex]
  | .sym _ => []
  | .add _ => []

def factorsDeltaList : List Expression → List Expression
  | [] => []
  | e :: rest => factorsDelta e ++ factorsDeltaList rest
end

mutual
/-- Ghost function: the expressions one collected operand records in the
`baseHashToExpr` map, in write order. -/
def mulCands : Expression → List Expression
  | .num _ => []
  | .mul args => mulCandsList args
  | .pow b ex =>
      match ex with
      | .num _ => mulCands b
      | _ => []
  | .sym n => [Expression.sym n]
  | .add args => [Expression.add args]

def mulCandsList : List Expression → List Expression
  | [] => []
  | e :: rest => mulCands e ++ mulCandsList rest
end

theorem collectF_coeff_list (args : List Expression) (x : ℚ)
    (H : ∀ a ∈ args, ∀ x st, (collectFactors a x st).coeff = st.coeff * mulCoeffDelta a x) :
    ∀ st, (collectFactorsList args x st).coeff = st.coeff * mulCoeffDeltaList args x := by
  induction args with
  | nil => intro st; simp [collectFactorsList, mulCoeffDeltaList]
  | cons a rest ihl =>
      intro st
      simp only [collectFactorsList, mulCoeffDeltaList]
      rw [ihl (fun b hb x st => H b (List.mem_cons_of_mem a hb) x st),
        H a (List.mem_cons_self a rest)]
      ring

theorem collectF_coeff (e : Expression) :
    ∀ x st, (collectFactors e x st).coeff = st.coeff * mulCoeffDelta e x := by
  induction e using Expression.strongInd with
  | ih e IH =>
    cases e with
    | num v =>
        intro x st
        simp only [collectFactors, mulCoeffDelta]
        split_ifs with h1 h2
        · simp
        · simp
        · simp [qmul_eq]
    | sym n => intro x st; simp [collectFactors, mulCoeffDelta]
    | add args => intro x st; simp [collectFactors, mulCoeffDelta]
    | pow b ex =>
        intro x st
        cases ex with
        | num ev =>
            simp only [collectFactors, mulCoeffDelta]
            exact IH b (by simp only [Expression.size]; omega) (qmul ev x) st
        | sym m => simp [collectFactors, mulCoeffDelta]
        | add l => simp [collectFactors, mulCoeffDelta]
        | mul l => simp [collectFactors, mulCoeffDelta]
        | pow c d => simp [collectFactors, mulCoeffDelta]
    | mul args =>
        intro x st
        simp only [collectFactors, mulCoeffDelta]
        exact collectF_coeff_list args x
          (fun a ha x st => IH a
            (by have := size_lt_of_mem ha; simp only [Expression.size]; omega) x st) st

theorem collectF_getD_list (args : List Expression) (x : ℚ)
    (H : ∀ a ∈ args, ∀ x st h,
      mapGetD (collectFactors a x st).powers h = mapGetD st.powers h + powDelta a x h) :
    ∀ st h, mapGetD (collectFactorsList args x st).powers h =
      mapGetD st.powers h + powDeltaList args x h := by
  induction args with
  | nil => intro st h; simp [collectFactorsList, powDeltaList]
  | cons a rest ihl =>
      intro st h
      simp only [collectFactorsList, powDeltaList]
      rw [ihl (fun b hb x st h => H b (List.mem_cons_of_mem a hb) x st h) _ h,
        H a (List.mem_cons_self a rest) _ _ h]
      ring

theorem collectF_getD (e : Expression) :
    ∀ x st h, mapGetD (collectFactors e x st).powers h = mapGetD st.powers h + powDelta e x h := by
  induction e using Expression.strongInd with
  | ih e IH =>
    cases e with
    | num v =>
        intro x st h
        simp only [collectFactors, powDelta]
        split_ifs with h1 h2 <;> simp
    | sym n =>
        intro x st h
        simp only [collectFactors, powDelta]
        rw [mapGetD_mapSet]
        rcases eq_or_ne h (Expression.sym n).hash with h1 | h1
        · rw [if_pos h1, if_pos h1.symm, qadd_eq, h1]
        · rw [if_neg h1, if_neg (fun hh => h1 hh.symm), add_zero]
    | add args =>
        intro x st h
        simp only [collectFactors, powDelta]
        rw [mapGetD_mapSet]
        rcases eq_or_ne h (Expression.add args).hash with h1 | h1
        · rw [if_pos h1, if_pos h1.symm, qadd_eq, h1]
        · rw [if_neg h1, if_neg (fun hh => h1 hh.symm), add_zero]
    | pow b ex =>
        intro x st h
        cases ex with
        | num ev =>
            simp only [collectFactors, powDelta]
            exact IH b (by simp only [Expression.size]; omega) (qmul ev x) st h
        | sym m => simp [collectFactors, powDelta]
        | add l => simp [collectFactors, powDelta]
        | mul l => simp [collectFactors, powDelta]
        | pow c d => simp [collectFactors, powDelta]
    | mul args =>
        intro x st h
        simp only [collectFactors, powDelta]
        exact collectF_getD_list args x
          (fun a ha x st h => IH a
            (by have := size_lt_of_mem ha; simp only [Expression.size]; omega) x st h) st h

theorem collectF_factors_list (args : List Expression)
    (H : ∀ a ∈ args, ∀ x st, (collectFactors a x st).factors = st.factors ++ factorsDelta a) :
    ∀ x st, (collectFactorsList args x st).factors = st.factors ++ factorsDeltaList args := by
  induction args with
  | nil => intro x st; simp [collectFactorsList, factorsDeltaList]
  | cons a rest ihl =>
      intro x st
      simp only [collectFactorsList, factorsDeltaList]
      rw [ihl (fun b hb x st => H b (List.mem_cons_of_mem a hb) x st),
        H a (List.mem_cons_self a rest), List.append_assoc]

theorem collectF_factors (e : Expression) :
    ∀ x st, (collectFactors e x st).factors = st.factors ++ factorsDelta e := by
  induction e using Expression.strongInd with
  | ih e IH =>
    cases e with
    | num v =>
        intro x st
        simp only [collectFactors, factorsDelta]
        split_ifs with h1 h2 <;> simp
    | sym n => intro x st; simp [collectFactors, factorsDelta]
    | add args => intro x st; simp [collectFactors, factorsDelta]
    | pow b ex =>
        intro x st
        cases ex with
        | num ev =>
            simp only [collectFactors, factorsDelta]
            exact IH b (by simp only [Expression.size]; omega) (qmul ev x) st
        | sym m => simp [collectFactors, factorsDelta]
        | add l => simp [collectFactors, factorsDelta]
        | mul l => simp [collectFactors, factorsDelta]
        | pow c d => simp [collectFactors, factorsDelta]
    | mul args =>
        intro x st
        simp only [collectFactors, factorsDelta]
        exact collectF_factors_list args
          (fun a ha x st => IH a
            (by have := size_lt_of_mem ha; simp only [Expression.size]; omega) x st) x st

theorem collectF_nodupK_list (args : List Expression)
    (H : ∀ a ∈ args, ∀ x st, NodupK st.powers → NodupK (collectFactors a x st).powers) :
    ∀ x st, NodupK st.powers → NodupK (collectFactorsList args x st).powers := by
  induction args with
  | nil => intro x st hst; simpa [collectFactorsList] using hst
  | cons a rest ihl =>
      intro x st hst
      simp only [collectFactorsList]
      exact ihl (fun b hb x st h => H b (List.mem_cons_of_mem a hb) x st h) _ _
        (H a (List.mem_cons_self a rest) x st hst)

theorem collectF_nodupK (e : Expression) :
    ∀ x st, NodupK st.powers → NodupK (collectFactors e x st).powers := by
  induction e using Expression.strongInd with
  | ih e IH =>
    cases e with
    | num v =>
        intro x st hst
        simp only [collectFactors]
        split_ifs with h1 h2 <;> simpa using hst
    | sym n =>
        intro x st hst
        simp only [collectFactors]
        exact nodupK_mapSet hst _ _
    | add args =>
        intro x st hst
        simp only [collectFactors]
        exact nodupK_mapSet hst _ _
    | pow b ex =>
        intro x st hst
        cases ex with
        | num ev =>
            simp only [collectFactors]
            exact IH b (by simp only [Expression.size]; omega) (qmul ev x) st hst
        | sym m => simpa [collectFactors] using hst
        | add l => simpa [collectFactors] using hst
        | mul l => simpa [collectFactors] using hst
        | pow c d => simpa [collectFactors] using hst
    | mul args =>
        intro x st hst
        simp only [collectFactors]
        exact collectF_nodupK_list args
          (fun a ha x st h => IH a
            (by have := size_lt_of_mem ha; simp only [Expression.size]; omega) x st h) x st hst


/-! ### C3 Mul part: the base-hash-to-expression map -/

theorem rmapGet_rmapSet (m : List (Nat × Expression)) (k : Nat) (v : Expression) (k' : Nat) :
    rmapGet (rmapSet m k v) k' = if k' = k then some v else rmapGet m k' := by
  induction m with
  | nil =>
      rcases eq_or_ne k' k with h | h
      · subst h
        simp [rmapSet, rmapGet]
      · simp [rmapSet, rmapGet, h, Ne.symm h]
  | cons p rest ih =>
      obtain ⟨k0, v0⟩ := p
      rcases eq_or_ne k0 k with hk0 | hk0
      · subst hk0
        rcases eq_or_ne k' k0 with h | h
        · subst h
          simp [rmapSet, rmapGet]
        · simp [rmapSet, rmapGet, h, Ne.symm h]
      · rcases eq_or_ne k0 k' with h | h
        · subst h
          simp [rmapSet, rmapGet, hk0]
        · simp [rmapSet, rmapGet, hk0, h, ih]

theorem collectF_stable_list (args : List Expression)
    (H : ∀ a ∈ args, ∀ x st h, (∀ u ∈ mulCands a, u.hash ≠ h) →
      rmapGet (collectFactors a x st).baseHashToExpr h = rmapGet st.baseHashToExpr h) :
    ∀ x st h, (∀ u ∈ mulCandsList args, u.hash ≠ h) →
      rmapGet (collectFactorsList args x st).baseHashToExpr h = rmapGet st.baseHashToExpr h := by
  induction args with
  | nil => intro x st h _; rfl
  | cons a rest ihl =>
      intro x st h hn
      simp only [mulCandsList] at hn
      simp only [collectFactorsList]
      rw [ihl (fun b hb x st h hh => H b (List.mem_cons_of_mem a hb) x st h hh) x _ h
          (fun u hu => hn u (List.mem_append_right _ hu)),
        H a (List.mem_cons_self a rest) x st h (fun u hu => hn u (List.mem_append_left _ hu))]

/-- Operands none of whose candidates carry the key leave the
`baseHashToExpr` entry at that key unchanged. -/
theorem collectF_reps_stable (e : Expression) :
    ∀ x st h, (∀ u ∈ mulCands e, u.hash ≠ h) →
      rmapGet (collectFactors e x st).baseHashToExpr h = rmapGet st.baseHashToExpr h := by
  induction e using Expression.strongInd with
  | ih e IH =>
    cases e with
    | num v =>
        intro x st h _
        simp only [collectFactors]
        split_ifs with h1 h2 <;> rfl
    | sym n =>
        intro x st h hn
        simp only [collectFactors]
        rw [rmapGet_rmapSet,
          if_neg (fun hh => hn (Expression.sym n) (by simp [mulCands]) hh.symm)]
    | add args =>
        intro x st h hn
        simp only [collectFactors]
        rw [rmapGet_rmapSet,
          if_neg (fun hh => hn (Expression.add args) (by simp [mulCands]) hh.symm)]
    | pow b ex =>
        intro x st h hn
        cases ex with
        | num ev =>
            simp only [collectFactors]
            simp only [mulCands] at hn
            exact IH b (by simp only [Expression.size]; omega) (qmul ev x) st h hn
        | sym m => rfl
        | add l => rfl
        | mul l => rfl
        | pow c d => rfl
    | mul args =>
        intro x st h hn
        simp only [collectFactors]
        simp only [mulCands] at hn
        exact collectF_stable_list args
          (fun a ha x st h hh => IH a
            (by have := size_lt_of_mem ha; simp only [Expression.size]; omega) x st h hh)
          x st h hn

theorem collectF_write_list (args : List Expression)
    (H : ∀ a ∈ args, ∀ x st h u,
      (∀ p ∈ mulCands a, ∀ q ∈ mulCands a, p.hash = q.hash → p = q) →
      u ∈ mulCands a → u.hash = h →
      rmapGet (collectFactors a x st).baseHashToExpr h = some u) :
    ∀ x st h u,
      (∀ p ∈ mulCandsList args, ∀ q ∈ mulCandsList args, p.hash = q.hash → p = q) →
      u ∈ mulCandsList args → u.hash = h →
      rmapGet (collectFactorsList args x st).baseHashToExpr h = some u := by
  induction args with
  | nil =>
      intro x st h u _ hu _
      simp [mulCandsList] at hu
  | cons a rest ihl =>
      intro x st h u hinj hu hh
      simp only [mulCandsList] at hinj hu
      simp only [collectFactorsList]
      by_cases hrw : ∃ w ∈ mulCandsList rest, w.hash = h
      · obtain ⟨w, hw, hwh⟩ := hrw
        have hfin := ihl (fun b hb x st h u hi hm hhh => H b (List.mem_cons_of_mem a hb) x st h u hi hm hhh)
          x (collectFactors a x st) h w
          (fun p hp q hq he => hinj p (List.mem_append_right _ hp) q (List.mem_append_right _ hq) he)
          hw hwh
        rw [hfin, hinj w (List.mem_append_right _ hw) u hu (hwh.trans hh.symm)]
      · push_neg at hrw
        rw [collectF_stable_list rest
          (fun b hb x st h hhh => collectF_reps_stable b x st h hhh)
          x (collectFactors a x st) h hrw]
        have hua : u ∈ mulCands a := by
          rcases List.mem_append.mp hu with h1 | h1
          · exact h1
          · exact absurd hh (hrw u h1)
        exact H a (List.mem_cons_self a rest) x st h u
          (fun p hp q hq he => hinj p (List.mem_append_left _ hp) q (List.mem_append_left _ hq) he)
          hua hh

/-- If an operand's candidates are hash-injective and one of them carries the
key, that candidate is the `baseHashToExpr` entry at the key afterwards. -/
theorem collectF_reps_write (e : Expression) :
    ∀ x st h u,
      (∀ p ∈ mulCands e, ∀ q ∈ mulCands e, p.hash = q.hash → p = q) →
      u ∈ mulCands e → u.hash = h →
      rmapGet (collectFactors e x st).baseHashToExpr h = some u := by
  induction e using Expression.strongInd with
  | ih e IH =>
    cases e with
    | num v =>
        intro x st h u _ hu _
        simp [mulCands] at hu
    | sym n =>
        intro x st h u _ hu hh
        simp only [mulCands, List.mem_singleton] at hu
        subst hu
        simp only [collectFactors]
        rw [rmapGet_rmapSet, if_pos hh.symm]
    | add args =>
        intro x st h u _ hu hh
        simp only [mulCands, List.mem_singleton] at hu
        subst hu
        simp only [collectFactors]
        rw [rmapGet_rmapSet, if_pos hh.symm]
    | pow b ex =>
        intro x st h u hinj hu hh
        cases ex with
        | num ev =>
            simp only [mulCands] at hinj hu
            simp only [collectFactors]
            exact IH b (by simp only [Expression.size]; omega) (qmul ev x) st h u hinj hu hh
        | sym m => simp [mulCands] at hu
        | add l => simp [mulCands] at hu
        | mul l => simp [mulCands] at hu
        | pow c d => simp [mulCands] at hu
    | mul args =>
        intro x st h u hinj hu hh
        simp only [mulCands] at hinj hu
        simp only [collectFactors]
        exact collectF_write_list args
          (fun a ha x st h u hi hm hhh => IH a
            (by have := size_lt_of_mem ha; simp only [Expression.size]; omega) x st h u hi hm hhh)
          x st h u hinj hu hh

theorem collectF_repsInv_list (args : List Expression)
    (H : ∀ a ∈ args, ∀ x st,
      (∀ k w, rmapGet st.baseHashToExpr k = some w → w.hash = k) →
      ∀ k w, rmapGet (collectFactors a x st).baseHashToExpr k = some w → w.hash = k) :
    ∀ x st, (∀ k w, rmapGet st.baseHashToExpr k = some w → w.hash = k) →
      ∀ k w, rmapGet (collectFactorsList args x st).baseHashToExpr k = some w → w.hash = k := by
  induction args with
  | nil => intro x st hst k w hw; exact hst k w hw
  | cons a rest ihl =>
      intro x st hst k w hw
      simp only [collectFactorsList] at hw
      exact ihl (fun b hb x st hi k w hh => H b (List.mem_cons_of_mem a hb) x st hi k w hh)
        x (collectFactors a x st) (H a (List.mem_cons_self a rest) x st hst) k w hw

/-- Every expression stored in `baseHashToExpr` is stored under its own
hash. -/
theorem collectF_repsInv (e : Expression) :
    ∀ x st, (∀ k w, rmapGet st.baseHashToExpr k = some w → w.hash = k) →
      ∀ k w, rmapGet (collectFactors e x st).baseHashToExpr k = some w → w.hash = k := by
  induction e using Expression.strongInd with
  | ih e IH =>
    cases e with
    | num v =>
        intro x st hst k w hw
        simp only [collectFactors] at hw
        split_ifs at hw <;> exact hst k w hw
    | sym n =>
        intro x st hst k w hw
        simp only [collectFactors] at hw
        rw [rmapGet_rmapSet] at hw
        split_ifs at hw with h1
        · injection hw with hw
          subst hw
          exact h1.symm
        · exact hst k w hw
    | add args =>
        intro x st hst k w hw
        simp only [collectFactors] at hw
        rw [rmapGet_rmapSet] at hw
        split_ifs at hw with h1
        · injection hw with hw
          subst hw
          exact h1.symm
        · exact hst k w hw
    | pow b ex =>
        intro x st hst k w hw
        cases ex with
        | num ev =>
            simp only [collectFactors] at hw
            exact IH b (by simp only [Expression.size]; omega) (qmul ev x) st hst k w hw
        | sym m => exact hst k w hw
        | add l => exact hst k w hw
        | mul l => exact hst k w hw
        | pow c d => exact hst k w hw
    | mul args =>
        intro x st hst k w hw
        simp only [collectFactors] at hw
        exact collectF_repsInv_list args
          (fun a ha x st hi k w hh => IH a
            (by have := size_lt_of_mem ha; simp only [Expression.size]; omega) x st hi k w hh)
          x st hst k w hw

/-! ### C3 Mul part: power-pair construction and sorting -/

/-- The base-comparator order used to sort power pairs. -/
def pairLE (p q : Expression × ℚ) : Prop := p.1.compareTo q.1 ≤ 0

theorem insertPair_perm (a : Expression × ℚ) (l : List (Expression × ℚ)) :
    List.Perm (insertPair a l) (a :: l) := by
  induction l with
  | nil => rfl
  | cons b l ih =>
      rw [insertPair]
      split_ifs
      · rfl
      · exact (List.Perm.cons b ih).trans (List.Perm.swap a b l)

theorem sortPairsCanon_perm (l : List (Expression × ℚ)) :
    List.Perm (sortPairsCanon l) l := by
  induction l with
  | nil => rfl
  | cons a l ih => exact (insertPair_perm a (sortPairsCanon l)).trans (ih.cons a)

theorem insertPair_sorted (a : Expression × ℚ) (l : List (Expression × ℚ))
    (h : List.Sorted pairLE l) : List.Sorted pairLE (insertPair a l) := by
  induction l with
  | nil => simp [insertPair, List.sorted_singleton]
  | cons b l ih =>
      rw [insertPair]
      split_ifs with hab
      · rw [List.sorted_cons]
        refine ⟨?_, h⟩
        intro y hy
        rcases List.mem_cons.mp hy with rfl | hy2
        · exact hab
        · exact cmp_trans a.1 b.1 y.1 hab ((List.sorted_cons.mp h).1 y hy2)
      · rw [List.sorted_cons] at h ⊢
        obtain ⟨hb, hl⟩ := h
        refine ⟨?_, ih hl⟩
        intro y hy
        have hmem : y ∈ a :: l := (insertPair_perm a l).subset hy
        rcases List.mem_cons.mp hmem with rfl | hy2
        · show b.1.compareTo y.1 ≤ 0
          rw [cmp_neg y.1 b.1]
          push_neg at hab
          linarith
        · exact hb y hy2

theorem sortPairsCanon_sorted (l : List (Expression × ℚ)) :
    List.Sorted pairLE (sortPairsCanon l) := by
  induction l with
  | nil => simp [sortPairsCanon]
  | cons a l ih => exact insertPair_sorted a (sortPairsCanon l) ih

/-- The per-entry step of `buildPowerPairs` on an entry already known to have
a nonzero exponent. -/
def pairOf (reps : List (Nat × Expression)) (p : Nat × ℚ) : Option (Expression × ℚ) :=
  match rmapGet reps p.1 with
  | some b => some ((b, p.2) : Expression × ℚ)
  | none => none

theorem buildPowerPairs_eq_filter (entries : List (Nat × ℚ)) (reps : List (Nat × Expression)) :
    buildPowerPairs entries reps =
      (entries.filter (fun p => decide (p.2 ≠ 0))).filterMap (pairOf reps) := by
  induction entries with
  | nil => rfl
  | cons p rest ih =>
      obtain ⟨h, v⟩ := p
      simp only [buildPowerPairs] at ih ⊢
      simp only [List.filterMap_cons, List.filter_cons]
      by_cases hv : v = 0
      · subst hv
        simpa using ih
      · cases hr : rmapGet reps h with
        | none => simp [hv, hr, pairOf, ih]
        | some t => simp [hv, hr, pairOf, ih]

theorem mem_buildPowerPairs {entries : List (Nat × ℚ)} {reps : List (Nat × Expression)}
    {u : Expression} {v : ℚ}
    (hnd : NodupK entries)
    (hinv : ∀ k w, rmapGet reps k = some w → w.hash = k)
    (hm : (u, v) ∈ buildPowerPairs entries reps) :
    v = mapGetD entries u.hash := by
  rw [buildPowerPairs_eq_filter] at hm
  obtain ⟨p, hp, hpe⟩ := List.mem_filterMap.mp hm
  obtain ⟨h, w⟩ := p
  simp only [List.mem_filter, decide_eq_true_eq] at hp
  obtain ⟨hpmem, hw0⟩ := hp
  simp only [pairOf] at hpe
  cases hr : rmapGet reps h with
  | none => rw [hr] at hpe; simp at hpe
  | some bexp =>
      rw [hr] at hpe
      injection hpe with hpe
      injection hpe with hpe1 hpe2
      rw [← hpe2, ← hpe1, hinv h bexp hr]
      exact (mapGetD_of_mem hnd hpmem).symm

theorem pairs_eq_map {l : List (Expression × ℚ)} (g : Expression → ℚ)
    (h : ∀ p ∈ l, p.2 = g p.1) : l = (l.map Prod.fst).map (fun u => (u, g u)) := by
  induction l with
  | nil => rfl
  | cons p rest ih =>
      obtain ⟨u, v⟩ := p
      have h1 : v = g u := h (u, v) (List.mem_cons_self _ _)
      simp only [List.map_cons]
      rw [← ih (fun q hq => h q (List.mem_cons_of_mem _ hq)), ← h1]

theorem sorted_fst_of_sorted_pairs {l : List (Expression × ℚ)}
    (h : List.Sorted pairLE l) : List.Sorted cmpLE (l.map Prod.fst) := by
  induction l with
  | nil => simp
  | cons p rest ih =>
      rw [List.sorted_cons] at h
      obtain ⟨hp, hrest⟩ := h
      rw [List.map_cons, List.sorted_cons]
      refine ⟨?_, ih hrest⟩
      intro y hy
      obtain ⟨q, hq, rfl⟩ := List.mem_map.mp hy
      exact hp q hq


/-! ### C3 Mul part: two-operand commutativity -/

theorem mulSeqFold_pair_eq (a b : Expression) (st : MulSt) (h0 : st.coeff ≠ 0) :
    mulSeqFold [a, b] st =
      if (collectFactors a 1 st).coeff = 0 then collectFactors a 1 st
      else collectFactors b 1 (collectFactors a 1 st) := by
  simp only [mulSeqFold]
  rw [if_neg h0]

/-- A zero flatten coefficient collapses a two-operand `Mul.create` to
`ZERO`. -/
theorem mul_create_pair_coeff_zero (a b : Expression)
    (h : (Mul.flatten [a, b]).coeff = 0) : Mul.create [a, b] = ZERO := by
  simp only [Mul.create]
  rw [if_pos h]

/-- `Mul.flatten` on a two-operand sequence is commutative when the recorded
bases have no hash collisions and neither operand annihilates the
coefficient (so the early-stop guard fires for neither order). -/
theorem mul_flatten_pair_comm (a b : Expression)
    (hinj : ∀ u ∈ mulCands a ++ mulCands b, ∀ v ∈ mulCands a ++ mulCands b,
      u.hash = v.hash → u = v)
    (hMa : mulCoeffDelta a 1 ≠ 0) (hMb : mulCoeffDelta b 1 ≠ 0) :
    Mul.flatten [a, b] = Mul.flatten [b, a] := by
  have hinja : ∀ p ∈ mulCands a, ∀ q ∈ mulCands a, p.hash = q.hash → p = q :=
    fun p hp q hq he => hinj p (List.mem_append_left _ hp) q (List.mem_append_left _ hq) he
  have hinjb : ∀ p ∈ mulCands b, ∀ q ∈ mulCands b, p.hash = q.hash → p = q :=
    fun p hp q hq he => hinj p (List.mem_append_right _ hp) q (List.mem_append_right _ hq) he
  have hs1a : (collectFactors a 1 (⟨[], [], [], 1⟩ : MulSt)).coeff ≠ 0 := by
    rw [collectF_coeff]
    simpa using hMa
  have hs1b : (collectFactors b 1 (⟨[], [], [], 1⟩ : MulSt)).coeff ≠ 0 := by
    rw [collectF_coeff]
    simpa using hMb
  have hf1 : mulSeqFold [a, b] ⟨[], [], [], 1⟩ =
      collectFactors b 1 (collectFactors a 1 ⟨[], [], [], 1⟩) := by
    rw [mulSeqFold_pair_eq a b _ (by exact one_ne_zero), if_neg hs1a]
  have hf2 : mulSeqFold [b, a] ⟨[], [], [], 1⟩ =
      collectFactors a 1 (collectFactors b 1 ⟨[], [], [], 1⟩) := by
    rw [mulSeqFold_pair_eq b a _ (by exact one_ne_zero), if_neg hs1b]
  have hco : (collectFactors b 1 (collectFactors a 1 (⟨[], [], [], 1⟩ : MulSt))).coeff =
      (collectFactors a 1 (collectFactors b 1 (⟨[], [], [], 1⟩ : MulSt))).coeff := by
    rw [collectF_coeff, collectF_coeff, collectF_coeff, collectF_coeff]
    ring
  have hfacperm : List.Perm
      (collectFactors b 1 (collectFactors a 1 (⟨[], [], [], 1⟩ : MulSt))).factors
      (collectFactors a 1 (collectFactors b 1 (⟨[], [], [], 1⟩ : MulSt))).factors := by
    rw [collectF_factors, collectF_factors, collectF_factors, collectF_factors]
    have h0 : ((⟨[], [], [], 1⟩ : MulSt)).factors = [] := rfl
    rw [h0]
    simp only [List.nil_append]
    exact List.perm_append_comm
  have hgetD : ∀ h,
      mapGetD (collectFactors b 1 (collectFactors a 1 (⟨[], [], [], 1⟩ : MulSt))).powers h =
      mapGetD (collectFactors a 1 (collectFactors b 1 (⟨[], [], [], 1⟩ : MulSt))).powers h := by
    intro h
    rw [collectF_getD, collectF_getD, collectF_getD, collectF_getD]
    ring
  have hnd1 : NodupK (collectFactors b 1 (collectFactors a 1 (⟨[], [], [], 1⟩ : MulSt))).powers :=
    collectF_nodupK b 1 _ (collectF_nodupK a 1 _ nodupK_nil)
  have hnd2 : NodupK (collectFactors a 1 (collectFactors b 1 (⟨[], [], [], 1⟩ : MulSt))).powers :=
    collectF_nodupK a 1 _ (collectF_nodupK b 1 _ nodupK_nil)
  have hinv0 : ∀ k w, rmapGet ((⟨[], [], [], 1⟩ : MulSt)).baseHashToExpr k = some w →
      w.hash = k := by
    intro k w hw
    simp [rmapGet] at hw
  have hinv1 : ∀ k w,
      rmapGet (collectFactors b 1 (collectFactors a 1 (⟨[], [], [], 1⟩ : MulSt))).baseHashToExpr k =
        some w → w.hash = k :=
    collectF_repsInv b 1 _ (collectF_repsInv a 1 _ hinv0)
  have hinv2 : ∀ k w,
      rmapGet (collectFactors a 1 (collectFactors b 1 (⟨[], [], [], 1⟩ : MulSt))).baseHashToExpr k =
        some w → w.hash = k :=
    collectF_repsInv a 1 _ (collectF_repsInv b 1 _ hinv0)
  have hreps : ∀ h,
      rmapGet (collectFactors b 1 (collectFactors a 1 (⟨[], [], [], 1⟩ : MulSt))).baseHashToExpr h =
      rmapGet (collectFactors a 1 (collectFactors b 1 (⟨[], [], [], 1⟩ : MulSt))).baseHashToExpr h := by
    intro h
    by_cases hb2 : ∃ w ∈ mulCands b, w.hash = h
    · obtain ⟨w, hw, hwh⟩ := hb2
      rw [collectF_reps_write b 1 (collectFactors a 1 ⟨[], [], [], 1⟩) h w hinjb hw hwh]
      by_cases ha2 : ∃ w2 ∈ mulCands a, w2.hash = h
      · obtain ⟨w2, hw2, hwh2⟩ := ha2
        rw [collectF_reps_write a 1 (collectFactors b 1 ⟨[], [], [], 1⟩) h w2 hinja hw2 hwh2]
        rw [hinj w (List.mem_append_right _ hw) w2 (List.mem_append_left _ hw2)
          (hwh.trans hwh2.symm)]
      · push_neg at ha2
        rw [collectF_reps_stable a 1 (collectFactors b 1 ⟨[], [], [], 1⟩) h ha2,
          collectF_reps_write b 1 (⟨[], [], [], 1⟩ : MulSt) h w hinjb hw hwh]
    · push_neg at hb2
      rw [collectF_reps_stable b 1 (collectFactors a 1 ⟨[], [], [], 1⟩) h hb2]
      by_cases ha2 : ∃ w2 ∈ mulCands a, w2.hash = h
      · obtain ⟨w2, hw2, hwh2⟩ := ha2
        rw [collectF_reps_write a 1 (⟨[], [], [], 1⟩ : MulSt) h w2 hinja hw2 hwh2,
          collectF_reps_write a 1 (collectFactors b 1 ⟨[], [], [], 1⟩) h w2 hinja hw2 hwh2]
      · push_neg at ha2
        rw [collectF_reps_stable a 1 (⟨[], [], [], 1⟩ : MulSt) h ha2,
          collectF_reps_stable a 1 (collectFactors b 1 ⟨[], [], [], 1⟩) h ha2,
          collectF_reps_stable b 1 (⟨[], [], [], 1⟩ : MulSt) h hb2]
  have hperm := filter_perm_of_getD_eq hnd1 hnd2 hgetD
  have hfn : pairOf
      (collectFactors b 1 (collectFactors a 1 (⟨[], [], [], 1⟩ : MulSt))).baseHashToExpr =
      pairOf (collectFactors a 1 (collectFactors b 1 (⟨[], [], [], 1⟩ : MulSt))).baseHashToExpr := by
    funext p
    simp only [pairOf]
    rw [hreps p.1]
  have hbpp : List.Perm
      (buildPowerPairs (collectFactors b 1 (collectFactors a 1 (⟨[], [], [], 1⟩ : MulSt))).powers
        (collectFactors b 1 (collectFactors a 1 (⟨[], [], [], 1⟩ : MulSt))).baseHashToExpr)
      (buildPowerPairs (collectFactors a 1 (collectFactors b 1 (⟨[], [], [], 1⟩ : MulSt))).powers
        (collectFactors a 1 (collectFactors b 1 (⟨[], [], [], 1⟩ : MulSt))).baseHashToExpr) := by
    rw [buildPowerPairs_eq_filter, buildPowerPairs_eq_filter, hfn]
    exact hperm.filterMap _
  have hQperm : List.Perm
      (sortPairsCanon (buildPowerPairs
        (collectFactors b 1 (collectFactors a 1 (⟨[], [], [], 1⟩ : MulSt))).powers
        (collectFactors b 1 (collectFactors a 1 (⟨[], [], [], 1⟩ : MulSt))).baseHashToExpr))
      (sortPairsCanon (buildPowerPairs
        (collectFactors a 1 (collectFactors b 1 (⟨[], [], [], 1⟩ : MulSt))).powers
        (collectFactors a 1 (collectFactors b 1 (⟨[], [], [], 1⟩ : MulSt))).baseHashToExpr)) :=
    (sortPairsCanon_perm _).trans (hbpp.trans (sortPairsCanon_perm _).symm)
  have hchar1 : ∀ p ∈ sortPairsCanon (buildPowerPairs
      (collectFactors b 1 (collectFactors a 1 (⟨[], [], [], 1⟩ : MulSt))).powers
      (collectFactors b 1 (collectFactors a 1 (⟨[], [], [], 1⟩ : MulSt))).baseHashToExpr),
      p.2 = mapGetD (collectFactors b 1 (collectFactors a 1 (⟨[], [], [], 1⟩ : MulSt))).powers
        p.1.hash := by
    intro p hp
    obtain ⟨u, v⟩ := p
    exact mem_buildPowerPairs hnd1 hinv1 ((sortPairsCanon_perm _).subset hp)
  have hchar2 : ∀ p ∈ sortPairsCanon (buildPowerPairs
      (collectFactors a 1 (collectFactors b 1 (⟨[], [], [], 1⟩ : MulSt))).powers
      (collectFactors a 1 (collectFactors b 1 (⟨[], [], [], 1⟩ : MulSt))).baseHashToExpr),
      p.2 = mapGetD (collectFactors b 1 (collectFactors a 1 (⟨[], [], [], 1⟩ : MulSt))).powers
        p.1.hash := by
    intro p hp
    obtain ⟨u, v⟩ := p
    rw [mem_buildPowerPairs hnd2 hinv2 ((sortPairsCanon_perm _).subset hp)]
    exact (hgetD _).symm
  have hB : (sortPairsCanon (buildPowerPairs
      (collectFactors b 1 (collectFactors a 1 (⟨[], [], [], 1⟩ : MulSt))).powers
      (collectFactors b 1 (collectFactors a 1 (⟨[], [], [], 1⟩ : MulSt))).baseHashToExpr)).map
        Prod.fst =
      (sortPairsCanon (buildPowerPairs
      (collectFactors a 1 (collectFactors b 1 (⟨[], [], [], 1⟩ : MulSt))).powers
      (collectFactors a 1 (collectFactors b 1 (⟨[], [], [], 1⟩ : MulSt))).baseHashToExpr)).map
        Prod.fst :=
    List.eq_of_perm_of_sorted (hQperm.map _)
      (sorted_fst_of_sorted_pairs (sortPairsCanon_sorted _))
      (sorted_fst_of_sorted_pairs (sortPairsCanon_sorted _))
  have hpairs : sortPairsCanon (buildPowerPairs
      (collectFactors b 1 (collectFactors a 1 (⟨[], [], [], 1⟩ : MulSt))).powers
      (collectFactors b 1 (collectFactors a 1 (⟨[], [], [], 1⟩ : MulSt))).baseHashToExpr) =
      sortPairsCanon (buildPowerPairs
      (collectFactors a 1 (collectFactors b 1 (⟨[], [], [], 1⟩ : MulSt))).powers
      (collectFactors a 1 (collectFactors b 1 (⟨[], [], [], 1⟩ : MulSt))).baseHashToExpr) := by
    rw [pairs_eq_map
        (fun u => mapGetD
          (collectFactors b 1 (collectFactors a 1 (⟨[], [], [], 1⟩ : MulSt))).powers u.hash)
        hchar1,
      pairs_eq_map
        (fun u => mapGetD
          (collectFactors b 1 (collectFactors a 1 (⟨[], [], [], 1⟩ : MulSt))).powers u.hash)
        hchar2,
      hB]
  simp only [Mul.flatten]
  rw [hf1, hf2, MulFlattenResult.mk.injEq]
  exact ⟨sortCanon_eq_of_perm hfacperm, hpairs, hco⟩

/-- `Mul.create` on two operands is commutative when the recorded bases have
no hash collisions (the coefficient-annihilation early stop collapses both
orders to `ZERO`). -/
theorem mul_create_pair_comm (a b : Expression)
    (hinj : ∀ u ∈ mulCands a ++ mulCands b, ∀ v ∈ mulCands a ++ mulCands b,
      u.hash = v.hash → u = v) :
    Mul.create [a, b] = Mul.create [b, a] := by
  by_cases hMa : mulCoeffDelta a 1 = 0
  · have h1 : (Mul.flatten [a, b]).coeff = 0 := by
      have he : (Mul.flatten [a, b]).coeff = (mulSeqFold [a, b] ⟨[], [], [], 1⟩).coeff := rfl
      rw [he, mulSeqFold_pair_eq a b _ (by exact one_ne_zero)]
      have hs1 : (collectFactors a 1 (⟨[], [], [], 1⟩ : MulSt)).coeff = 0 := by
        rw [collectF_coeff]
        simp [hMa]
      rw [if_pos hs1]
      exact hs1
    have h2 : (Mul.flatten [b, a]).coeff = 0 := by
      have he : (Mul.flatten [b, a]).coeff = (mulSeqFold [b, a] ⟨[], [], [], 1⟩).coeff := rfl
      rw [he, mulSeqFold_pair_eq b a _ (by exact one_ne_zero)]
      by_cases hMb : mulCoeffDelta b 1 = 0
      · have hs1 : (collectFactors b 1 (⟨[], [], [], 1⟩ : MulSt)).coeff = 0 := by
          rw [collectF_coeff]
          simp [hMb]
        rw [if_pos hs1]
        exact hs1
      · have hs1 : (collectFactors b 1 (⟨[], [], [], 1⟩ : MulSt)).coeff ≠ 0 := by
          rw [collectF_coeff]
          simpa using hMb
        rw [if_neg hs1, collectF_coeff, collectF_coeff]
        simp [hMa]
    rw [mul_create_pair_coeff_zero a b h1, mul_create_pair_coeff_zero b a h2]
  · by_cases hMb : mulCoeffDelta b 1 = 0
    · have h1 : (Mul.flatten [a, b]).coeff = 0 := by
        have he : (Mul.flatten [a, b]).coeff = (mulSeqFold [a, b] ⟨[], [], [], 1⟩).coeff := rfl
        rw [he, mulSeqFold_pair_eq a b _ (by exact one_ne_zero)]
        have hs1 : (collectFactors a 1 (⟨[], [], [], 1⟩ : MulSt)).coeff ≠ 0 := by
          rw [collectF_coeff]
          simpa using hMa
        rw [if_neg hs1, collectF_coeff, collectF_coeff]
        simp [hMb]
      have h2 : (Mul.flatten [b, a]).coeff = 0 := by
        have he : (Mul.flatten [b, a]).coeff = (mulSeqFold [b, a] ⟨[], [], [], 1⟩).coeff := rfl
        rw [he, mulSeqFold_pair_eq b a _ (by exact one_ne_zero)]
        have hs1 : (collectFactors b 1 (⟨[], [], [], 1⟩ : MulSt)).coeff = 0 := by
          rw [collectF_coeff]
          simp [hMb]
        rw [if_pos hs1]
        exact hs1
      rw [mul_create_pair_coeff_zero a b h1, mul_create_pair_coeff_zero b a h2]
    · have hfl := mul_flatten_pair_comm a b hinj hMa hMb
      simp only [Mul.create]
      rw [hfl]


/-- C3 (counterexample): the claimed unconditional commutativity of
`Add.create` and `Mul.create` is false. The distinct symbols `jscvduwp` and
`lmgwpnrq` collide under the FNV-1a node hash, and because both flatten
collectors key their maps by that hash, swapping the operand order changes
the canonical tree: the `equals` comparison of the two orders returns
`false` for both the sum and the product. -/
theorem claim_c3_counterexample :
    ((Expression.sym "jscvduwp").hash = (Expression.sym "lmgwpnrq").hash ∧
      Expression.sym "jscvduwp" ≠ Expression.sym "lmgwpnrq") ∧
    ¬ (∀ a b : Expression,
      (Add.create [a, b]).equals (Add.create [b, a]) = true ∧
      (Mul.create [a, b]).equals (Mul.create [b, a]) = true) := by
  refine ⟨⟨by decide, by decide⟩, fun h => ?_⟩
  have h2 := (h (.sym "jscvduwp") (.sym "lmgwpnrq")).1
  have h3 : (Add.create [Expression.sym "jscvduwp", Expression.sym "lmgwpnrq"]).equals
      (Add.create [Expression.sym "lmgwpnrq", Expression.sym "jscvduwp"]) = false := by decide
  rw [h2] at h3
  exact Bool.noConfusion h3

/-- C3 (amended): two-operand `Add.create` and `Mul.create` are commutative
whenever the hash-keyed collection maps see no collisions — precisely, when
the candidate representatives of the `Add` rescan (`repCands`) and the
recorded bases of the `Mul` collector (`mulCands`) are hash-injective. This
holds in particular whenever the node hashes of the relevant subterms are
collision-free, which is the situation the spec presumes. -/
theorem claim_c3_amended (a b : Expression)
    (haddinj : ∀ u ∈ repCands [a, b], ∀ v ∈ repCands [a, b], u.hash = v.hash → u = v)
    (hmulinj : ∀ u ∈ mulCands a ++ mulCands b, ∀ v ∈ mulCands a ++ mulCands b,
      u.hash = v.hash → u = v) :
    (Add.create [a, b]).equals (Add.create [b, a]) = true ∧
    (Mul.create [a, b]).equals (Mul.create [b, a]) = true := by
  constructor
  · rw [add_create_pair_comm a b haddinj]
    exact equals_refl _
  · rw [mul_create_pair_comm a b hmulinj]
    exact equals_refl _

/-- C3 (witness): the amended commutativity at the concrete symbols `x` and
`y`, whose candidate hashes are collision-free. -/
theorem claim_c3_witness :
    (Add.create [.sym "x", .sym "y"]).equals (Add.create [.sym "y", .sym "x"]) = true ∧
    (Mul.create [.sym "x", .sym "y"]).equals (Mul.create [.sym "y", .sym "x"]) = true :=
  claim_c3_amended (.sym "x") (.sym "y") (by decide) (by decide)



end SymTs
